import Mathlib

set_option maxHeartbeats 1000000
set_option maxRecDepth 4000

/-!
Verification of the SAT-encoding core of the Algos-In-Logic-Assignments
repository (Ex2): the variable interner, the NFA-acceptance CNF generator,
the teacher/subject set-cover CNF generator, the DIMACS serializer and the
two model decoders, together with the reference NFA simulator.

Every definition is a shallow embedding of the corresponding Python code
(Python dict insertion order is modelled with association lists, Python
lists with Lean lists, Python sets with lists carrying the iteration
order).  Definitions whose Python counterpart lives outside the repository
(the pysat DIMACS reader at the solver boundary) are modelled from the
specification and marked as such.
-/

namespace SatEnc

/-- A CNF clause: a list of signed integer literals, as in
`cnf_generator.py` (sign is polarity, magnitude is the variable index). -/
abbrev Clause := List Int

/-! ## Character-level helpers for Python string operations

Python `str.split(sep)`, `str.startswith`, `int(...)` and `str(...)` are
modelled on the character list of a Lean `String`. -/

/-- Worker for Python `s.split(sep)` with a one-character separator:
splits at every occurrence, keeping empty chunks (Python semantics). -/
def splitCharAux (sep : Char) : List Char → List Char → List (List Char)
  | [], acc => [acc.reverse]
  | c :: cs, acc =>
    if c = sep then acc.reverse :: splitCharAux sep cs []
    else splitCharAux sep cs (c :: acc)

/-- Python `s.split(sep)` for a one-character separator. -/
def pySplit (s : String) (sep : Char) : List String :=
  (splitCharAux sep s.data []).map (fun l => String.mk l)

/-- Python `s.startswith('x')` for the one-character position used in
`TeacherSolver._extract_teachers`. -/
def startsWithX (s : String) : Bool :=
  match s.data with
  | [] => false
  | c :: _ => c == 'x'

/-- Decimal digit character, used to model Python `str` on integers. -/
def digitChar (d : Nat) : Char := Char.ofNat (48 + d)

/-- Numeric value of a decimal digit character. -/
def digitVal (c : Char) : Nat := c.toNat - 48

/-- Fuel-driven decimal rendering of a natural number (most significant
digit first); the fuel is strictly larger than the number. -/
def natDigitsAux : Nat → Nat → List Char
  | 0, _ => []
  | fuel + 1, n =>
    if n < 10 then [digitChar n]
    else natDigitsAux fuel (n / 10) ++ [digitChar (n % 10)]

/-- Python `str(n)` for a natural number. -/
def natStr (n : Nat) : String := String.mk (natDigitsAux (n + 1) n)

/-- Python `str(i)` for an integer (decimal, with a leading minus sign for
negative numbers). -/
def intStr (i : Int) : String :=
  if i < 0 then "-" ++ natStr i.natAbs else natStr i.natAbs

/-- Parse a nonempty all-digit character list as a natural number. -/
def parseNatChars (cs : List Char) : Option Nat :=
  if cs = [] then none
  else if cs.all Char.isDigit then
    some (cs.foldl (fun acc c => 10 * acc + digitVal c) 0)
  else none

/-- Python `int(s)` restricted to natural numbers. -/
def pyParseNat (s : String) : Option Nat := parseNatChars s.data

/-- Python `int(s)` on signed decimal strings. -/
def pyParseInt (s : String) : Option Int :=
  match s.data with
  | [] => none
  | c :: rest =>
    if c = '-' then (parseNatChars rest).map (fun n => -(Int.ofNat n))
    else (parseNatChars (c :: rest)).map (fun n => Int.ofNat n)

/-- Python `" ".join(parts)`. -/
def spaceJoin : List String → String
  | [] => ""
  | [s] => s
  | s :: rest => s ++ " " ++ spaceJoin rest

/-- Sequential concatenation of the strings written to a file. -/
def concatStrs : List String → String
  | [] => ""
  | s :: rest => s ++ concatStrs rest

/-! ## Variable interner and clause store

Models the `var_map` / `next_var` / `clauses` triple shared by both
`CNFGenerator` classes.  The Python dict is an association list in
insertion order. -/

/-- The variable interner: `var_map` (insertion-ordered) and `next_var`. -/
structure Interner where
  varMap : List (String × Nat)
  nextVar : Nat
deriving DecidableEq, Repr

/-- The empty interner (`var_map = {}`, `next_var = 1`). -/
def Interner.empty : Interner := ⟨[], 1⟩

/-- `get_var` core: return the interned index for a name, allocating
`next_var` on first use (both generators share this logic). -/
def Interner.get (it : Interner) (n : String) : Nat × Interner :=
  match it.varMap.lookup n with
  | some v => (v, it)
  | none => (it.nextVar, ⟨it.varMap ++ [(n, it.nextVar)], it.nextVar + 1⟩)

/-- Sequential interning of a list of names (a Python list comprehension
of `get_var` calls). -/
def Interner.getList (it : Interner) : List String → List Nat × Interner
  | [] => ([], it)
  | n :: rest =>
    let p := it.get n
    let q := p.2.getList rest
    (p.1 :: q.1, q.2)

/-- `get_var_mapping`: the reverse dictionary from indices to names. -/
def getVarMapping (it : Interner) : List (Nat × String) :=
  it.varMap.map (fun e => (e.2, e.1))

/-- Generator state: the interner plus the clause store. -/
structure Gen where
  interner : Interner
  clauses : List Clause
deriving DecidableEq, Repr

/-- The freshly initialised generator. -/
def gen0 : Gen := ⟨Interner.empty, []⟩

/-- `add_clause`: append one clause to the store. -/
def Gen.addClause (g : Gen) (c : Clause) : Gen := ⟨g.interner, g.clauses ++ [c]⟩

/-- Append a batch of clauses emitted by one Python loop. -/
def Gen.addClauses (g : Gen) (cs : List Clause) : Gen := ⟨g.interner, g.clauses ++ cs⟩

/-- `get_var` at the generator level. -/
def Gen.getVar1 (g : Gen) (n : String) : Nat × Gen :=
  let p := g.interner.get n
  (p.1, ⟨p.2, g.clauses⟩)

/-- A list-comprehension of `get_var` calls at the generator level. -/
def Gen.getList (g : Gen) (ns : List String) : List Nat × Gen :=
  let p := g.interner.getList ns
  (p.1, ⟨p.2, g.clauses⟩)

/-! ## The NFA (nfa.py) -/

/-- `NFA` dataclass: states, alphabet, transition dict, initial and final
states.  The nested transition dict is an association list
state -> (symbol -> successor list). -/
structure NFA where
  states : List String
  alphabet : List String
  transitions : List (String × List (String × List String))
  initial_states : List String
  final_states : List String
deriving DecidableEq, Repr

/-- `NFA.get_next_states`: successors of a state on a symbol, empty when
either dict lookup misses. -/
def NFA.get_next_states (nfa : NFA) (current_state symbol : String) : List String :=
  match nfa.transitions.lookup current_state with
  | none => []
  | some row => (row.lookup symbol).getD []

/-- The recursive `dfs` helper of `NFA.accepts`. -/
def NFA.dfs (nfa : NFA) : String → List String → Bool
  | s, [] => nfa.final_states.contains s
  | s, sym :: rest => (nfa.get_next_states s sym).any (fun ns => nfa.dfs ns rest)

/-- `NFA.accepts`: direct simulation, trying every initial state. -/
def NFA.accepts (nfa : NFA) (w : List String) : Bool :=
  nfa.initial_states.any (fun s0 => nfa.dfs s0 w)

/-- `NFA._validate_structure` as a boolean check: initial/final states and
all transition endpoints declared, all transition symbols in the
alphabet. -/
def NFA.validB (nfa : NFA) : Bool :=
  nfa.initial_states.all (fun s => nfa.states.contains s) &&
  nfa.final_states.all (fun s => nfa.states.contains s) &&
  nfa.transitions.all (fun row =>
    nfa.states.contains row.1 &&
    row.2.all (fun cell =>
      nfa.alphabet.contains cell.1 &&
      cell.2.all (fun s => nfa.states.contains s)))

/-! ## The NFA CNF generator (NFA/cnf_generator.py) -/

/-- The variable naming scheme of `CNFGenerator.get_var`: state q at time
t is the proposition named q, underscore, t. -/
def varName (state : String) (time : Nat) : String :=
  state ++ "_" ++ natStr time

/-- Pairwise at-most-one clauses over a variable list, in the emission
order of the double loop with i less than j. -/
def pairsAMO : List Nat → List Clause
  | [] => []
  | v :: rest => rest.map (fun u => [-(v : Int), -(u : Int)]) ++ pairsAMO rest

/-- Step 1 of `generate_cnf`: exactly-one initial state at time 0. -/
def genInitial (nfa : NFA) (g : Gen) : Gen :=
  let p := g.getList (nfa.initial_states.map (fun s => varName s 0))
  ((p.2.addClause (p.1.map (fun v => (v : Int)))).addClauses (pairsAMO p.1))

/-- One inner-loop step of the transition phase: the implication clause
for one state at one time step; no clause when there is no successor. -/
def genTransStep (nfa : NFA) (w : List String) (t : Nat) (g : Gen) (st : String) : Gen :=
  let p := g.getVar1 (varName st t)
  let q := p.2.getList ((nfa.get_next_states st (w.getD t "")).map (fun s => varName s (t + 1)))
  if q.1.isEmpty then q.2
  else q.2.addClause (-(p.1 : Int) :: q.1.map (fun v => (v : Int)))

/-- Step 2 of `generate_cnf`: transition clauses for every time step and
state. -/
def genTransitions (nfa : NFA) (w : List String) (g : Gen) : Gen :=
  (List.range w.length).foldl
    (fun g t => nfa.states.foldl (genTransStep nfa w t) g) g

/-- Step 3 of `generate_cnf`: exactly one state active at every time step
(including the final one). -/
def genExactlyOne (nfa : NFA) (w : List String) (g : Gen) : Gen :=
  (List.range (w.length + 1)).foldl
    (fun g t =>
      let p := g.getList (nfa.states.map (fun s => varName s t))
      ((p.2.addClause (p.1.map (fun v => (v : Int)))).addClauses (pairsAMO p.1)) ) g

/-- Step 4 of `generate_cnf`: the acceptance clause over the final states
at the last time step. -/
def genAccept (nfa : NFA) (w : List String) (g : Gen) : Gen :=
  let p := g.getList (nfa.final_states.map (fun s => varName s w.length))
  p.2.addClause (p.1.map (fun v => (v : Int)))

/-- `CNFGenerator.generate_cnf` for the NFA acceptance problem. -/
def generateCnf (nfa : NFA) (w : List String) : Gen :=
  genAccept nfa w (genExactlyOne nfa w (genTransitions nfa w (genInitial nfa gen0)))

/-! ## CNF semantics -/

/-- Truth of a signed literal under an assignment of the variable
indices. -/
def evalLit (a : Nat → Bool) (l : Int) : Bool :=
  if 0 < l then a l.toNat else !a (-l).toNat

/-- Truth of a clause (disjunction). -/
def evalClause (a : Nat → Bool) (c : Clause) : Bool := c.any (evalLit a)

/-- Truth of a CNF formula (conjunction of clauses). -/
def satisfies (a : Nat → Bool) (cs : List Clause) : Bool := cs.all (evalClause a)

/-- The literal list a SAT solver returns for a total assignment over
variables 1..n (ascending, one signed literal per variable). -/
def modelOf (a : Nat → Bool) (n : Nat) : List Int :=
  (List.range' 1 n).map (fun v => if a v then (v : Int) else -(v : Int))

/-! ## The NFA model decoder (NFA/solver.py) -/

/-- Parse a variable name back into its state and time (the tuple
unpacking of `var_name.split` in `_extract_path`; any other shape raises
in Python, modelled as failure). -/
def parseStateTime (nm : String) : Option (String × Nat) :=
  match pySplit nm '_' with
  | [st, tm] => (pyParseNat tm).map (fun n => (st, n))
  | _ => none

/-- One dict update `time_state_map[t] = st` (Python overwrite). -/
def dictInsert (m : List (Nat × String)) (t : Nat) (st : String) : List (Nat × String) :=
  (m.filter (fun e => e.1 ≠ t)) ++ [(t, st)]

/-- `NFASolver._extract_path`: collect the true variables, build the
time-to-state dictionary and read it off for times 0 .. len-1.  The
Python code iterates a set of integers; the iteration order is
unspecified there and immaterial whenever the map is single-valued, so
the literal order of the model list is used here.  Failure (Python
KeyError / ValueError) is `none`. -/
def extractPath (mapping : List (Nat × String)) (model : List Int) : Option (List String) :=
  let trueVars := (model.filter (fun l => 0 < l)).map Int.toNat
  match trueVars.foldlM
      (fun (m : List (Nat × String)) v =>
        match mapping.lookup v with
        | none => none
        | some nm =>
          match parseStateTime nm with
          | none => none
          | some p => some (dictInsert m p.2 p.1)) [] with
  | none => none
  | some m => (List.range m.length).mapM (fun t => m.lookup t)

/-! ## Concrete instance exhibiting the dead-end defect

An automaton where state a has no successor on the only symbol: the
time-expanded formula puts no constraint at all on occupancy of a dead
end, so the solver may jump from a to b. -/

/-- States a (initial, no transitions) and b (final, self-loop on x). -/
def nfaCex : NFA := ⟨["a", "b"], ["x"], [("b", [("x", ["b"])])], ["a"], ["b"]⟩

/-- The one-letter input word x. -/
def wordCex : List String := ["x"]

/-- The (unique) satisfying assignment of the generated formula:
variables 1 (a at time 0) and 3 (b at time 1) true. -/
def aCex : Nat → Bool := fun n => n == 1 || n == 3

/-! ## General facts used by the claim on automata without final states -/

theorem dfs_eq_false_of_no_finals (nfa : NFA) (h : nfa.final_states = []) :
    ∀ (w : List String) (s : String), nfa.dfs s w = false := by
  intro w
  induction w with
  | nil => intro s; simp [NFA.dfs, h]
  | cons sym rest ih =>
    intro s
    simp only [NFA.dfs, List.any_eq_false]
    intro ns _
    simp [ih ns]

theorem accepts_eq_false_of_no_finals (nfa : NFA) (h : nfa.final_states = [])
    (w : List String) : nfa.accepts w = false := by
  simp only [NFA.accepts, List.any_eq_false]
  intro s0 _
  simp [dfs_eq_false_of_no_finals nfa h w s0]

theorem satisfies_eq_false_of_nil_mem (cs : List Clause) (h : [] ∈ cs)
    (a : Nat → Bool) : satisfies a cs = false := by
  simp only [satisfies, List.all_eq_false]
  exact ⟨[], h, by simp [evalClause]⟩

theorem generateCnf_clauses_of_no_finals (nfa : NFA) (w : List String)
    (h : nfa.final_states = []) :
    (generateCnf nfa w).clauses
      = (genExactlyOne nfa w (genTransitions nfa w (genInitial nfa gen0))).clauses ++ [[]] := by
  simp [generateCnf, genAccept, h, Gen.getList, Interner.getList, Gen.addClause]

/-! ## Association list lemmas (Python dict model) -/

section AssocList

variable {α β : Type} [BEq α] [LawfulBEq α]

theorem lookup_append_left {l1 l2 : List (α × β)} {a : α} {v : β}
    (h : l1.lookup a = some v) : (l1 ++ l2).lookup a = some v := by
  induction l1 with
  | nil => simp [List.lookup] at h
  | cons e rest ih =>
    rcases e with ⟨k, w⟩
    by_cases hk : a == k
    · simpa [List.lookup, hk] using by simpa [List.lookup, hk] using h
    · simp only [List.cons_append, List.lookup, hk] at h ⊢
      exact ih h

theorem lookup_append_fresh {l : List (α × β)} {a : α} (v : β)
    (h : l.lookup a = none) : (l ++ [(a, v)]).lookup a = some v := by
  induction l with
  | nil => simp [List.lookup]
  | cons e rest ih =>
    rcases e with ⟨k, w⟩
    by_cases hk : a == k
    · simp [List.lookup, hk] at h
    · simp only [List.lookup, hk] at h
      simp only [List.cons_append, List.lookup, hk]
      exact ih h

theorem not_mem_keys_of_lookup_none {l : List (α × β)} {a : α}
    (h : l.lookup a = none) : a ∉ l.map Prod.fst := by
  induction l with
  | nil => simp
  | cons e rest ih =>
    rcases e with ⟨k, w⟩
    by_cases hk : a == k
    · simp [List.lookup, hk] at h
    · simp only [List.lookup, hk] at h
      have : a ≠ k := fun heq => by simp [heq] at hk
      simpa [this] using ih h

theorem mem_of_lookup_eq_some {l : List (α × β)} {a : α} {v : β}
    (h : l.lookup a = some v) : (a, v) ∈ l := by
  induction l with
  | nil => simp [List.lookup] at h
  | cons e rest ih =>
    rcases e with ⟨k, w⟩
    by_cases hk : a == k
    · simp only [List.lookup, hk] at h
      have hak : a = k := by simpa using hk
      have hwv : w = v := by simpa using h
      subst hak
      subst hwv
      exact List.mem_cons_self _ _
    · simp only [List.lookup, hk] at h
      exact List.mem_cons_of_mem _ (ih h)

theorem lookup_eq_some_of_mem_of_nodup {l : List (α × β)} {a : α} {v : β}
    (hnd : (l.map Prod.fst).Nodup) (hmem : (a, v) ∈ l) : l.lookup a = some v := by
  induction l with
  | nil => simp at hmem
  | cons e rest ih =>
    rcases e with ⟨k, w⟩
    simp only [List.map_cons, List.nodup_cons] at hnd
    rcases List.mem_cons.mp hmem with heq | hrest
    · have h1 : a = k := congrArg Prod.fst heq
      have h2 : v = w := congrArg Prod.snd heq
      subst h1
      subst h2
      simp [List.lookup]
    · have hak : a ≠ k := by
        intro haeq
        exact hnd.1 (haeq ▸ (List.mem_map.mpr ⟨(a, v), hrest, rfl⟩))
      have : (a == k) = false := by simpa using hak
      simp [List.lookup, this, ih hnd.2 hrest]

end AssocList

/-! ## Interner invariant -/

/-- Well-formedness of a reachable interner state: the issued indices are
exactly 1..N in insertion order, the counter is N+1, and no name is
interned twice. -/
def Interner.wf (it : Interner) : Prop :=
  it.varMap.map Prod.snd = List.range' 1 it.varMap.length ∧
  it.nextVar = it.varMap.length + 1 ∧
  (it.varMap.map Prod.fst).Nodup

theorem empty_wf : Interner.empty.wf := by
  refine ⟨?_, rfl, ?_⟩ <;> simp [Interner.empty]

theorem get_of_lookup_some {it : Interner} {n : String} {v : Nat}
    (h : it.varMap.lookup n = some v) : it.get n = (v, it) := by
  simp [Interner.get, h]

theorem get_snd_lookup_self (it : Interner) (n : String) :
    (it.get n).2.varMap.lookup n = some (it.get n).1 := by
  unfold Interner.get
  cases h : it.varMap.lookup n with
  | some v => simpa using h
  | none => simpa using lookup_append_fresh it.nextVar h

theorem get_mono {it : Interner} {a : String} {v : Nat} (n : String)
    (h : it.varMap.lookup a = some v) : (it.get n).2.varMap.lookup a = some v := by
  unfold Interner.get
  cases hn : it.varMap.lookup n with
  | some w => simpa using h
  | none => simpa using lookup_append_left h

theorem get_wf {it : Interner} (n : String) (hwf : it.wf) : (it.get n).2.wf := by
  obtain ⟨hvals, hnext, hkeys⟩ := hwf
  unfold Interner.get
  cases hn : it.varMap.lookup n with
  | some w => simpa using ⟨hvals, hnext, hkeys⟩
  | none =>
    refine ⟨?_, by simp [hnext], ?_⟩
    · simp only [List.map_append, hvals, hnext, List.map_cons, List.map_nil,
        List.length_append, List.length_cons, List.length_nil]
      rw [List.range'_concat]
      simp [Nat.add_comm]
    · simp only [List.map_append, List.map_cons, List.map_nil]
      rw [List.nodup_append]
      refine ⟨hkeys, List.nodup_singleton n, ?_⟩
      intro a ha hb
      simp only [List.mem_singleton] at hb
      exact (not_mem_keys_of_lookup_none hn) (hb ▸ ha)

theorem get_keys {it : Interner} {a : String} (n : String)
    (h : a ∈ (it.get n).2.varMap.map Prod.fst) :
    a ∈ it.varMap.map Prod.fst ∨ a = n := by
  unfold Interner.get at h
  cases hn : it.varMap.lookup n with
  | some w => rw [hn] at h; simpa using Or.inl h
  | none =>
    rw [hn] at h
    simp only [List.map_append, List.mem_append, List.map_cons, List.map_nil,
      List.mem_singleton] at h
    simpa using h

/-- Values issued by a well-formed interner are at least 1. -/
theorem lookup_ge_one {it : Interner} {a : String} {v : Nat} (hwf : it.wf)
    (h : it.varMap.lookup a = some v) : 1 ≤ v := by
  have hm : (a, v) ∈ it.varMap := mem_of_lookup_eq_some h
  have : v ∈ it.varMap.map Prod.snd := List.mem_map.mpr ⟨(a, v), hm, rfl⟩
  rw [hwf.1] at this
  have := List.mem_range'_1.mp this
  omega

/-- An arbitrary sequence of interner calls starting from the fresh
interner (the state after any prefix of encoder activity). -/
def runGets (names : List String) : Interner :=
  names.foldl (fun it n => (it.get n).2) Interner.empty

theorem foldl_get_wf (names : List String) :
    ∀ it : Interner, it.wf → (names.foldl (fun it n => (it.get n).2) it).wf := by
  induction names with
  | nil => intro it h; exact h
  | cons n rest ih => intro it h; exact ih _ (get_wf n h)

theorem runGets_wf (names : List String) : (runGets names).wf :=
  foldl_get_wf names Interner.empty empty_wf

theorem getVarMapping_keys (it : Interner) :
    (getVarMapping it).map Prod.fst = it.varMap.map Prod.snd := by
  simp [getVarMapping]

theorem getVarMapping_lookup_of_lookup {it : Interner} (hwf : it.wf)
    {nm : String} {v : Nat} (h : it.varMap.lookup nm = some v) :
    (getVarMapping it).lookup v = some nm := by
  apply lookup_eq_some_of_mem_of_nodup
  · rw [getVarMapping_keys, hwf.1]
    exact List.nodup_range' _ _
  · exact List.mem_map.mpr ⟨(nm, v), mem_of_lookup_eq_some h, rfl⟩

theorem lookup_of_getVarMapping_lookup {it : Interner} (hwf : it.wf)
    {nm : String} {v : Nat} (h : (getVarMapping it).lookup v = some nm) :
    it.varMap.lookup nm = some v := by
  have hmem := mem_of_lookup_eq_some h
  simp only [getVarMapping, List.mem_map] at hmem
  obtain ⟨e, he, heq⟩ := hmem
  have h1 : e.2 = v := congrArg Prod.fst heq
  have h2 : e.1 = nm := congrArg Prod.snd heq
  have : (nm, v) ∈ it.varMap := by
    have : e = (nm, v) := Prod.ext h2 h1
    exact this ▸ he
  exact lookup_eq_some_of_mem_of_nodup hwf.2.2 this

/-! ## Claim theorems: interner (C8) and NFA encoder defects (C1, C2, C10) -/

/-- C8: after any sequence of interner calls the issued indices are
exactly 1..N in allocation order with no gaps; a repeated call returns
the stored index and leaves the interner unchanged; a fresh call
allocates the next unused index N+1; and the reverse mapping returned by
get_var_mapping is the inverse bijection from indices to names. -/
theorem c8_interner_contract (names : List String) (nm : String) (v : Nat) :
    ((runGets names).varMap.map Prod.snd = List.range' 1 (runGets names).varMap.length)
    ∧ ((runGets names).varMap.lookup nm = some v →
        (runGets names).get nm = (v, runGets names))
    ∧ ((runGets names).varMap.lookup nm = none →
        ((runGets names).get nm).1 = (runGets names).varMap.length + 1)
    ∧ ((getVarMapping (runGets names)).lookup v = some nm ↔
        (runGets names).varMap.lookup nm = some v) := by
  have hwf := runGets_wf names
  refine ⟨hwf.1, fun h => get_of_lookup_some h, fun h => ?_, ?_⟩
  · simp [Interner.get, h, hwf.2.1]
  · exact ⟨fun h => lookup_of_getVarMapping_lookup hwf h,
      fun h => getVarMapping_lookup_of_lookup hwf h⟩

/-- Witness for C8 at a concrete call sequence: the third call (a repeat
of the first name) returns index 1 and does not change the state. -/
theorem c8_interner_contract_witness :
    (runGets ["a", "b", "a"]).get "a" = (1, runGets ["a", "b", "a"]) :=
  (c8_interner_contract ["a", "b", "a"] "a" 1).2.1 (by decide)

/-- C1: the claimed equivalence between satisfiability of the generated
formula and NFA.accepts fails on the code: for the valid automaton
nfaCex (state a has no successor on x) and the in-alphabet word x, the
generated CNF is satisfiable (witness assignment aCex) although the
direct simulation rejects the word.  The transition loop emits no clause
for the dead end, and contrary to the claim the exactly-one constraint
at the next step does not exclude it. -/
theorem c1_dead_end_formula_sat_but_word_rejected :
    nfaCex.validB = true
    ∧ wordCex.all (fun c => nfaCex.alphabet.contains c) = true
    ∧ satisfies aCex (generateCnf nfaCex wordCex).clauses = true
    ∧ nfaCex.accepts wordCex = false := by decide

/-- C2: decoded-path validity fails on the code: aCex satisfies the
formula generated for nfaCex and the word x, the decoder extracts the
state sequence a, b (which does start at an initial state and end at a
final state), yet the pair (a, b) is not a valid transition on the
symbol x. -/
theorem c2_decoded_path_has_invalid_transition :
    satisfies aCex (generateCnf nfaCex wordCex).clauses = true
    ∧ extractPath (getVarMapping (generateCnf nfaCex wordCex).interner)
        (modelOf aCex ((generateCnf nfaCex wordCex).interner.nextVar - 1))
        = some ["a", "b"]
    ∧ nfaCex.initial_states.contains "a" = true
    ∧ nfaCex.final_states.contains "b" = true
    ∧ (nfaCex.get_next_states "a" "x").contains "b" = false := by decide

/-- C10: for every valid NFA with an empty set of final states and every
word over its alphabet, generate_cnf emits the empty acceptance clause,
the formula is unsatisfiable under every assignment, and NFA.accepts
returns false. -/
theorem c10_no_final_states_unsat (nfa : NFA) (w : List String)
    (hval : nfa.validB = true)
    (hw : w.all (fun c => nfa.alphabet.contains c) = true)
    (hfin : nfa.final_states = []) :
    [] ∈ (generateCnf nfa w).clauses
    ∧ (∀ a : Nat → Bool, satisfies a (generateCnf nfa w).clauses = false)
    ∧ nfa.accepts w = false := by
  have hmem : [] ∈ (generateCnf nfa w).clauses := by
    rw [generateCnf_clauses_of_no_finals nfa w hfin]
    simp
  exact ⟨hmem, fun a => satisfies_eq_false_of_nil_mem _ hmem a,
    accepts_eq_false_of_no_finals nfa hfin w⟩

/-- A valid automaton with no final states, used as the C10 witness. -/
def nfaNoFinal : NFA := ⟨["a"], ["x"], [], ["a"], []⟩

/-- Witness for C10 at a concrete valid automaton and word. -/
theorem c10_no_final_states_unsat_witness :
    [] ∈ (generateCnf nfaNoFinal ["x"]).clauses ∧ nfaNoFinal.accepts ["x"] = false :=
  ⟨(c10_no_final_states_unsat nfaNoFinal ["x"] (by decide) (by decide) rfl).1,
   (c10_no_final_states_unsat nfaNoFinal ["x"] (by decide) (by decide) rfl).2.2⟩

/-! ## The set-cover problem (SET-COVER/teacher_subject_set_cover.py) -/

/-- `Teacher` dataclass: a name and the set of subjects it can teach
(modelled as a list carrying the Python set's iteration order). -/
structure Teacher where
  name : String
  subjects : List String
deriving DecidableEq, Repr

/-- `TeacherSubjectSetCover` dataclass. -/
structure TSCover where
  teachers : List Teacher
  subjects : List String
  k : Nat
deriving DecidableEq, Repr

/-- `TeacherSubjectSetCover._validate_structure`: unique teacher names,
at least one teacher, positive k. -/
def TSCover.valid (p : TSCover) : Prop :=
  (p.teachers.map Teacher.name).Nodup ∧ p.teachers ≠ [] ∧ 0 < p.k

instance (p : TSCover) : Decidable p.valid := by
  unfold TSCover.valid
  infer_instance

/-- Python `itertools.combinations(l, r)` for nonnegative r: all
sublists of length r, in lexicographic position order. -/
def combos {α : Type} : Nat → List α → List (List α)
  | 0, _ => [[]]
  | _ + 1, [] => []
  | r + 1, x :: xs => (combos r xs).map (fun c => x :: c) ++ combos (r + 1) xs

/-- Python `itertools.combinations(l, r)` with the ValueError raised on
negative r modelled as failure. -/
def combinations {α : Type} (r : Int) (l : List α) : Option (List (List α)) :=
  if r < 0 then none else some (combos r.toNat l)

/-! ## The set-cover CNF generator (SET-COVER/cnf_generator.py) -/

/-- The select-variable name of `get_var` with tag x. -/
def xName (t : Teacher) : String := "x_" ++ t.name

/-- The assign-variable name of `get_var` with tag y. -/
def yName (t : Teacher) (s : String) : String := "y_" ++ t.name ++ "_" ++ s

/-- Positive literal from an interned index. -/
def posL (v : Nat) : Int := (v : Int)

/-- Negative literal from an interned index. -/
def negL (v : Nat) : Int := -(v : Int)

/-- One loop iteration that interns a comprehension of variables and adds
the resulting clause (the shape of the coverage and both cardinality
loops). -/
def emitStep {α : Type} (f : α → List String) (h : Nat → Int) (g : Gen) (x : α) : Gen :=
  let q := g.getList (f x)
  q.2.addClause (q.1.map h)

/-- One iteration of the capability-pinning inner loop: a unit clause
forcing the assign variable to the input data. -/
def pinStep (t : Teacher) (g : Gen) (s : String) : Gen :=
  let q := g.getVar1 (yName t s)
  if t.subjects.contains s then q.2.addClause [posL q.1]
  else q.2.addClause [negL q.1]

/-- Constraint 1 of `generate_cnf`: pin every assign variable. -/
def phasePin (p : TSCover) (g : Gen) : Gen :=
  p.teachers.foldl (fun g t => p.subjects.foldl (pinStep t) g) g

/-- The teachers able to teach a subject, in list order (the Python list
comprehension over `self.teachers`). -/
def capable (p : TSCover) (s : String) : List Teacher :=
  p.teachers.filter (fun t => t.subjects.contains s)

/-- Constraint 2 of `generate_cnf`: every subject is covered by a
selected capable teacher (empty clause when nobody can teach it). -/
def phaseCover (p : TSCover) (g : Gen) : Gen :=
  p.subjects.foldl (emitStep (fun s => (capable p s).map xName) posL) g

/-- Constraint 3a of `generate_cnf`: for every k+1 teachers, at least
one is not selected. -/
def phaseAtMost (p : TSCover) (g : Gen) : Gen :=
  (combos (p.k + 1) p.teachers).foldl (emitStep (fun c => c.map xName) negL) g

/-- Constraint 3b of `generate_cnf`: for every n-k+1 teachers, at least
one is selected (the combination list is supplied by `combinations`). -/
def phaseAtLeast (subs : List (List Teacher)) (g : Gen) : Gen :=
  subs.foldl (emitStep (fun c => c.map xName) posL) g

/-- `CNFGenerator.generate_cnf` for the set-cover problem; `none` models
the ValueError raised by `combinations` when n - k + 1 is negative. -/
def generateCnfSC (p : TSCover) : Option Gen :=
  let g3 := phaseAtMost p (phaseCover p (phasePin p gen0))
  match combinations ((p.teachers.length : Int) - (p.k : Int) + 1) p.teachers with
  | none => none
  | some subs => some (phaseAtLeast subs g3)

/-- The interned index of a teacher's select variable in a generator
state (0 if never interned). -/
def xVar (g : Gen) (t : Teacher) : Nat :=
  (g.interner.varMap.lookup (xName t)).getD 0

/-! ## The set-cover model decoder (SET-COVER/solver.py) -/

/-- `TeacherSolver._extract_teachers`: keep the positive model literals
whose variable is mapped to a name starting with x, then return the
piece of each name between the first and second underscore. -/
def extractTeachers (mapping : List (Nat × String)) (model : List Int) : List String :=
  let selected := model.filterMap (fun (lit : Int) =>
    if 0 < lit then
      match mapping.lookup lit.toNat with
      | some nm => if startsWithX nm then some nm else none
      | none => none
    else none)
  selected.map (fun nm => (pySplit nm '_').getD 1 "")

/-! ## Interning-list lemmas -/

theorem getList_nil (it : Interner) : it.getList [] = ([], it) := rfl

theorem getList_cons (it : Interner) (n : String) (rest : List String) :
    it.getList (n :: rest) =
      ((it.get n).1 :: ((it.get n).2.getList rest).1, ((it.get n).2.getList rest).2) := rfl

theorem getList_mono {it : Interner} (ns : List String) {a : String} {v : Nat}
    (h : it.varMap.lookup a = some v) : (it.getList ns).2.varMap.lookup a = some v := by
  induction ns generalizing it with
  | nil => simpa [getList_nil] using h
  | cons n rest ih =>
    rw [getList_cons]
    exact ih (get_mono n h)

theorem getList_wf {it : Interner} (ns : List String) (hwf : it.wf) :
    (it.getList ns).2.wf := by
  induction ns generalizing it with
  | nil => simpa [getList_nil] using hwf
  | cons n rest ih =>
    rw [getList_cons]
    exact ih (get_wf n hwf)

theorem getList_keys {it : Interner} (ns : List String) {a : String}
    (h : a ∈ (it.getList ns).2.varMap.map Prod.fst) :
    a ∈ it.varMap.map Prod.fst ∨ a ∈ ns := by
  induction ns generalizing it with
  | nil => rw [getList_nil] at h; exact Or.inl h
  | cons n rest ih =>
    rw [getList_cons] at h
    rcases ih h with h1 | h2
    · rcases get_keys n h1 with h3 | h4
      · exact Or.inl h3
      · exact Or.inr (h4 ▸ List.mem_cons_self n rest)
    · exact Or.inr (List.mem_cons_of_mem n h2)

theorem getList_lookup_isSome {it : Interner} (ns : List String) {n : String}
    (hn : n ∈ ns) : ((it.getList ns).2.varMap.lookup n).isSome := by
  induction ns generalizing it with
  | nil => simp at hn
  | cons m rest ih =>
    rw [getList_cons]
    rcases List.mem_cons.mp hn with heq | hrest
    · subst heq
      rw [getList_mono rest (get_snd_lookup_self it n)]
      rfl
    · exact ih hrest

theorem getList_vals (it : Interner) (ns : List String) :
    (it.getList ns).1 = ns.map (fun n => ((it.getList ns).2.varMap.lookup n).getD 0) := by
  induction ns generalizing it with
  | nil => rfl
  | cons n rest ih =>
    rw [getList_cons]
    simp only [List.map_cons, List.cons.injEq]
    constructor
    · rw [getList_mono rest (get_snd_lookup_self it n)]
      rfl
    · exact ih (it.get n).2

/-! ## A monotone-extension relation between generator states -/

/-- One generation phase extends a generator state: bindings persist, the
well-formedness invariant persists, clauses are only appended, and every
new name satisfies Q. -/
def GenStep (Q : String → Prop) (g g' : Gen) : Prop :=
  (∀ a v, g.interner.varMap.lookup a = some v → g'.interner.varMap.lookup a = some v) ∧
  (g.interner.wf → g'.interner.wf) ∧
  (∃ cs, g'.clauses = g.clauses ++ cs) ∧
  (∀ a, a ∈ g'.interner.varMap.map Prod.fst → a ∈ g.interner.varMap.map Prod.fst ∨ Q a)

theorem genStep_refl {Q : String → Prop} (g : Gen) : GenStep Q g g :=
  ⟨fun _ _ h => h, fun h => h, ⟨[], by simp⟩, fun _ h => Or.inl h⟩

theorem genStep_trans {Q : String → Prop} {g g' g'' : Gen}
    (h1 : GenStep Q g g') (h2 : GenStep Q g' g'') : GenStep Q g g'' := by
  obtain ⟨m1, w1, ⟨cs1, c1⟩, k1⟩ := h1
  obtain ⟨m2, w2, ⟨cs2, c2⟩, k2⟩ := h2
  refine ⟨fun a v h => m2 a v (m1 a v h), fun h => w2 (w1 h),
    ⟨cs1 ++ cs2, by rw [c2, c1, List.append_assoc]⟩, fun a h => ?_⟩
  rcases k2 a h with h | h
  · exact k1 a h
  · exact Or.inr h

theorem genStep_foldl {α : Type} {Q : String → Prop} (l : List α)
    (step : Gen → α → Gen) (hstep : ∀ g x, x ∈ l → GenStep Q g (step g x)) :
    ∀ g : Gen, GenStep Q g (l.foldl step g) := by
  induction l with
  | nil => intro g; exact genStep_refl g
  | cons y rest ih =>
    intro g
    refine genStep_trans (hstep g y (List.mem_cons_self y rest)) ?_
    exact ih (fun g x hx => hstep g x (List.mem_cons_of_mem y hx)) (step g y)

theorem emitStep_eq {α : Type} (f : α → List String) (h : Nat → Int)
    (g : Gen) (x : α) :
    emitStep f h g x =
      ⟨(g.interner.getList (f x)).2,
        g.clauses ++ [((g.interner.getList (f x)).1).map h]⟩ := rfl

theorem emitStep_genStep {α : Type} {Q : String → Prop}
    (f : α → List String) (h : Nat → Int) (g : Gen) (x : α)
    (hQ : ∀ a ∈ f x, Q a) : GenStep Q g (emitStep f h g x) := by
  rw [emitStep_eq]
  refine ⟨fun a v hl => getList_mono (f x) hl, fun hwf => getList_wf (f x) hwf,
    ⟨_, rfl⟩, fun a ha => ?_⟩
  rcases getList_keys (f x) ha with h1 | h2
  · exact Or.inl h1
  · exact Or.inr (hQ a h2)

theorem pinStep_genStep {Q : String → Prop} (t : Teacher) (g : Gen) (s : String)
    (hQ : Q (yName t s)) : GenStep Q g (pinStep t g s) := by
  unfold pinStep Gen.getVar1
  have hbase : ∀ c : Clause,
      GenStep Q g ⟨(g.interner.get (yName t s)).2, g.clauses ++ [c]⟩ := by
    intro c
    refine ⟨fun a v hl => get_mono _ hl, fun hwf => get_wf _ hwf, ⟨_, rfl⟩, fun a ha => ?_⟩
    rcases get_keys _ ha with h1 | h2
    · exact Or.inl h1
    · exact Or.inr (h2 ▸ hQ)
  show GenStep Q g (if t.subjects.contains s = true then _ else _)
  split
  · exact hbase _
  · exact hbase _

/-- Membership and final-interner form of the clause emitted for one list
element by an emit-style fold. -/
theorem emitFold_mem {α : Type} (f : α → List String) (h : Nat → Int)
    (l : List α) (x : α) (hx : x ∈ l) :
    ∀ g : Gen,
      ((f x).map (fun nm =>
          h (((l.foldl (emitStep f h) g).interner.varMap.lookup nm).getD 0)))
        ∈ (l.foldl (emitStep f h) g).clauses
      ∧ ∀ nm ∈ f x,
          ((l.foldl (emitStep f h) g).interner.varMap.lookup nm).isSome := by
  induction l with
  | nil => simp at hx
  | cons y rest ih =>
    intro g
    rcases List.mem_cons.mp hx with heq | hrest
    · subst heq
      simp only [List.foldl_cons]
      set g1 := emitStep f h g x with hg1
      set gF := rest.foldl (emitStep f h) g1 with hgF
      have hstep : GenStep (fun _ => True) g1 gF :=
        genStep_foldl rest _ (fun g' c _ => emitStep_genStep f h g' c (fun _ _ => trivial)) g1
      have hsome1 : ∀ nm ∈ f x, ((g1.interner.varMap.lookup nm)).isSome := by
        intro nm hnm
        rw [hg1, emitStep_eq]
        exact getList_lookup_isSome (f x) hnm
      have hsomeF : ∀ nm ∈ f x, ((gF.interner.varMap.lookup nm)).isSome := by
        intro nm hnm
        obtain ⟨v, hv⟩ := Option.isSome_iff_exists.mp (hsome1 nm hnm)
        rw [hstep.1 nm v hv]
        rfl
      have hagree : ∀ nm ∈ f x,
          (gF.interner.varMap.lookup nm).getD 0 = (g1.interner.varMap.lookup nm).getD 0 := by
        intro nm hnm
        obtain ⟨v, hv⟩ := Option.isSome_iff_exists.mp (hsome1 nm hnm)
        rw [hv, hstep.1 nm v hv]
      have hclause1 :
          ((f x).map (fun nm => h ((g1.interner.varMap.lookup nm).getD 0))) ∈ g1.clauses := by
        rw [hg1, emitStep_eq]
        simp only []
        refine List.mem_append_right _ ?_
        rw [getList_vals, List.map_map]
        exact List.mem_singleton.mpr rfl
      have hmemF :
          ((f x).map (fun nm => h ((g1.interner.varMap.lookup nm).getD 0))) ∈ gF.clauses := by
        obtain ⟨cs, hcs⟩ := hstep.2.2.1
        rw [hcs]
        exact List.mem_append_left _ hclause1
      refine ⟨?_, hsomeF⟩
      have : ((f x).map (fun nm => h ((gF.interner.varMap.lookup nm).getD 0)))
          = ((f x).map (fun nm => h ((g1.interner.varMap.lookup nm).getD 0))) := by
        apply List.map_congr_left
        intro nm hnm
        rw [hagree nm hnm]
      rw [this]
      exact hmemF
    · exact ih hrest (emitStep f h g y)

theorem mem_clauses_of_genStep {Q : String → Prop} {g g' : Gen}
    (h : GenStep Q g g') {c : Clause} (hc : c ∈ g.clauses) : c ∈ g'.clauses := by
  obtain ⟨cs, hcs⟩ := h.2.2.1
  rw [hcs]
  exact List.mem_append_left _ hc

theorem phaseCover_genStep (p : TSCover) (g : Gen) :
    GenStep (fun _ => True) g (phaseCover p g) :=
  genStep_foldl _ _ (fun g' c _ => emitStep_genStep _ _ g' c (fun _ _ => trivial)) g

theorem phaseAtMost_genStep (p : TSCover) (g : Gen) :
    GenStep (fun _ => True) g (phaseAtMost p g) :=
  genStep_foldl _ _ (fun g' c _ => emitStep_genStep _ _ g' c (fun _ _ => trivial)) g

theorem phaseAtLeast_genStep (subs : List (List Teacher)) (g : Gen) :
    GenStep (fun _ => True) g (phaseAtLeast subs g) :=
  genStep_foldl _ _ (fun g' c _ => emitStep_genStep _ _ g' c (fun _ _ => trivial)) g

theorem phasePin_genStep (p : TSCover) (g : Gen) :
    GenStep (fun _ => True) g (phasePin p g) :=
  genStep_foldl _ _ (fun g' t _ =>
    genStep_foldl _ _ (fun g'' s _ => pinStep_genStep t g'' s trivial) g') g

/-! ## Success and failure of the set-cover generator -/

theorem generateCnfSC_eq_some (p : TSCover)
    (h : 0 ≤ (p.teachers.length : Int) - (p.k : Int) + 1) :
    generateCnfSC p = some (phaseAtLeast
      (combos ((p.teachers.length : Int) - (p.k : Int) + 1).toNat p.teachers)
      (phaseAtMost p (phaseCover p (phasePin p gen0)))) := by
  unfold generateCnfSC combinations
  rw [if_neg (by omega)]

theorem generateCnfSC_eq_none (p : TSCover)
    (h : p.teachers.length + 2 ≤ p.k) : generateCnfSC p = none := by
  unfold generateCnfSC combinations
  rw [if_pos (by omega)]

/-- The instance showing the C4 claim false: one teacher, k = 3, so the
at-least combination size n - k + 1 = -1 makes Python raise ValueError
instead of producing an unsatisfiable formula. -/
def pCex4 : TSCover := ⟨[⟨"A", ["m"]⟩], ["m"], 3⟩

/-- C4 counterexample: a valid instance with k two larger than the
teacher count makes the encoder fail (Python ValueError in
itertools.combinations), not produce an unsatisfiable formula. -/
theorem c4_counterexample_k_exceeds :
    pCex4.valid ∧ generateCnfSC pCex4 = none := ⟨by decide, by decide⟩

/-- C4 amended: for a valid instance, k = n + 1 encodes successfully and
the degenerate at-least-one combination of size 0 contributes an empty
clause, so the formula is unsatisfiable with no error; but for
k at least n + 2 the combination enumeration fails (ValueError) and no
formula is produced. -/
theorem c4_amended_boundary (p : TSCover) (g : Gen) (hval : p.valid) :
    (p.k = p.teachers.length + 1 → (generateCnfSC p).isSome = true)
    ∧ (p.k = p.teachers.length + 1 → generateCnfSC p = some g →
        [] ∈ g.clauses ∧ ∀ a : Nat → Bool, satisfies a g.clauses = false)
    ∧ (p.teachers.length + 2 ≤ p.k → generateCnfSC p = none) := by
  refine ⟨fun hk => ?_, fun hk hgen => ?_, fun hk => generateCnfSC_eq_none p hk⟩
  · rw [generateCnfSC_eq_some p (by omega)]
    rfl
  · have h0 : ((p.teachers.length : Int) - (p.k : Int) + 1) = 0 := by omega
    rw [generateCnfSC_eq_some p (by omega), h0] at hgen
    have hg : phaseAtLeast (combos ((0 : Int)).toNat p.teachers)
        (phaseAtMost p (phaseCover p (phasePin p gen0))) = g := Option.some.inj hgen
    have hmem : [] ∈ g.clauses := by
      rw [← hg]
      have h00 : ((0 : Int)).toNat = 0 := rfl
      have hc : combos ((0 : Int)).toNat p.teachers = [[]] := by
        rw [h00]
        cases p.teachers <;> rfl
      rw [hc]
      simp [phaseAtLeast, emitStep, Gen.getList, Gen.addClause, Interner.getList]
    exact ⟨hmem, fun a => satisfies_eq_false_of_nil_mem _ hmem a⟩

/-- Witness instance for the amended C4: one teacher and k = 2 = n + 1. -/
def pW4 : TSCover := ⟨[⟨"A", ["m"]⟩], ["m"], 2⟩

/-- Witness for the amended C4 at a concrete instance. -/
theorem c4_amended_boundary_witness :
    (generateCnfSC pW4).isSome = true ∧ [] ∈ ((generateCnfSC pW4).getD gen0).clauses :=
  ⟨(c4_amended_boundary pW4 ((generateCnfSC pW4).getD gen0) (by decide)).1 (by decide),
   ((c4_amended_boundary pW4 ((generateCnfSC pW4).getD gen0) (by decide)).2.1
      (by decide) (by decide)).1⟩

/-- The instance showing the C5 claim false at large k: the required
subject m has zero capable teachers, but with k = 3 two above the
teacher count the encoder raises before any formula exists. -/
def pCex5 : TSCover := ⟨[⟨"B", []⟩], ["m"], 3⟩

/-- C5 counterexample: an instance with an uncoverable subject for which
the pipeline raises (ValueError in the cardinality enumeration) instead
of reporting ordinary unsatisfiability. -/
theorem c5_counterexample_error_not_unsat :
    pCex5.valid ∧ "m" ∈ pCex5.subjects ∧ capable pCex5 "m" = []
    ∧ generateCnfSC pCex5 = none := ⟨by decide, by decide, by decide, by decide⟩

/-- C5 amended: whenever encoding completes (which requires k at most
n + 1), a required subject with zero capable teachers receives an empty
coverage clause and the formula is unsatisfiable; for larger k the
encoder raises instead. -/
theorem c5_amended_uncovered_subject (p : TSCover) (s : String) (g : Gen)
    (hval : p.valid) (hs : s ∈ p.subjects) (hcap : capable p s = [])
    (hgen : generateCnfSC p = some g) :
    [] ∈ g.clauses ∧ ∀ a : Nat → Bool, satisfies a g.clauses = false := by
  have hr : 0 ≤ (p.teachers.length : Int) - (p.k : Int) + 1 := by
    by_contra hneg
    rw [generateCnfSC_eq_none p (by omega)] at hgen
    exact Option.noConfusion hgen
  rw [generateCnfSC_eq_some p hr] at hgen
  have hg := Option.some.inj hgen
  have hcover := emitFold_mem (fun s => (capable p s).map xName) posL
    p.subjects s hs (phasePin p gen0)
  rw [hcap] at hcover
  have hmem2 : [] ∈ (phaseCover p (phasePin p gen0)).clauses := by
    simpa [phaseCover] using hcover.1
  have hmem : [] ∈ g.clauses := by
    rw [← hg]
    exact mem_clauses_of_genStep (phaseAtLeast_genStep _ _)
      (mem_clauses_of_genStep (phaseAtMost_genStep _ _) hmem2)
  exact ⟨hmem, fun a => satisfies_eq_false_of_nil_mem _ hmem a⟩

/-- Witness instance for the amended C5: subject z has no capable
teacher and k = 1 is within bounds. -/
def pW5 : TSCover := ⟨[⟨"A", ["m"]⟩], ["m", "z"], 1⟩

/-- Witness for the amended C5 at a concrete instance. -/
theorem c5_amended_uncovered_subject_witness :
    [] ∈ ((generateCnfSC pW5).getD gen0).clauses :=
  (c5_amended_uncovered_subject pW5 "z" ((generateCnfSC pW5).getD gen0)
    (by decide) (by decide) (by decide) (by decide)).1

/-! ## The DIMACS serializer (write_dimacs, identical in both generators) -/

/-- One clause line of `write_dimacs`: the space-joined literals plus
the terminating zero and newline. -/
def clauseLine (c : Clause) : String :=
  spaceJoin (c.map intStr) ++ " 0\n"

/-- `write_dimacs`: the header line with next_var - 1 variables and the
clause count, followed by one line per stored clause. -/
def writeDimacs (g : Gen) : String :=
  "p cnf " ++ natStr (g.interner.nextVar - 1) ++ " " ++ natStr g.clauses.length ++ "\n"
    ++ concatStrs (g.clauses.map clauseLine)

/-- The exchange-format clause line exactly as the specification words
it: the literals and the terminating 0, all separated by single spaces,
then a newline. -/
def dimacsLineSpec (c : Clause) : String :=
  spaceJoin (c.map intStr ++ ["0"]) ++ "\n"

/-- The exchange format exactly as the specification words it: header
with the number of interned variables and of clauses, then the clause
lines in insertion order. -/
def dimacsSpecFormat (g : Gen) : String :=
  "p cnf " ++ natStr g.interner.varMap.length ++ " " ++ natStr g.clauses.length ++ "\n"
    ++ concatStrs (g.clauses.map dimacsLineSpec)

/-! ## The solver-boundary DIMACS reader

Modelled from the spec: the pysat `CNF(from_file=...)` reader used by
both solvers is outside the repository; section 4.5 of the specification
fixes the exchange format it accepts (header line `p cnf nvars
nclauses`, then one line per clause listing the literals terminated by a
literal 0). -/

/-- Modelled from the spec: read the literals of one clause, requiring
the terminating zero and no interior zero. -/
def takeLitsToZero : List Int → Option (List Int)
  | [] => none
  | l :: rest =>
    if l = 0 then (if rest = [] then some [] else none)
    else (takeLitsToZero rest).map (fun c => l :: c)

/-- Modelled from the spec: parse one clause line into its literals. -/
def parseClauseLine (line : String) : Option Clause :=
  match ((pySplit line ' ').filter (fun t => t.data ≠ [])).mapM pyParseInt with
  | none => none
  | some ints => takeLitsToZero ints

/-- Modelled from the spec: parse the problem line, returning the
declared variable count. -/
def parseHeader (toks : List String) : Option Nat :=
  match toks with
  | [pt, ct, a, _b] => if pt = "p" ∧ ct = "cnf" then pyParseNat a else none
  | _ => none

/-- Modelled from the spec: the solver boundary re-reads the exchange
file into a variable count and a clause list. -/
def parseDimacs (txt : String) : Option (Nat × List Clause) :=
  match pySplit txt '\n' with
  | [] => none
  | header :: rest =>
    match parseHeader ((pySplit header ' ').filter (fun t => t.data ≠ [])) with
    | none => none
    | some nv =>
      ((rest.filter (fun l => l.data ≠ [])).mapM parseClauseLine).map (fun cs => (nv, cs))

/-! ## Decimal print/parse round trip -/

theorem digitChar_isDigit {d : Nat} (h : d < 10) : (digitChar d).isDigit = true := by
  interval_cases d <;> decide

theorem digitVal_digitChar {d : Nat} (h : d < 10) : digitVal (digitChar d) = d := by
  interval_cases d <;> decide

theorem natDigitsAux_spec (fuel : Nat) :
    ∀ n : Nat, n < fuel →
      natDigitsAux fuel n ≠ []
      ∧ (∀ c ∈ natDigitsAux fuel n, c.isDigit = true)
      ∧ (natDigitsAux fuel n).foldl (fun acc c => 10 * acc + digitVal c) 0 = n := by
  induction fuel with
  | zero => intro n h; omega
  | succ f ih =>
    intro n h
    by_cases h10 : n < 10
    · simp only [natDigitsAux, if_pos h10]
      refine ⟨by simp, ?_, ?_⟩
      · intro c hc
        rw [List.mem_singleton] at hc
        subst hc
        exact digitChar_isDigit h10
      · simp [digitVal_digitChar h10]
    · simp only [natDigitsAux, if_neg h10]
      have hdiv : n / 10 < f := by
        have h1 : n / 10 < n := Nat.div_lt_self (by omega) (by omega)
        omega
      obtain ⟨hne, hdig, hfold⟩ := ih (n / 10) hdiv
      have hmod : n % 10 < 10 := Nat.mod_lt _ (by omega)
      refine ⟨by simp, ?_, ?_⟩
      · intro c hc
        rcases List.mem_append.mp hc with h1 | h2
        · exact hdig c h1
        · rw [List.mem_singleton] at h2
          subst h2
          exact digitChar_isDigit hmod
      · rw [List.foldl_append, hfold]
        simp only [List.foldl_cons, List.foldl_nil]
        rw [digitVal_digitChar hmod]
        omega

theorem natStr_data_spec (n : Nat) :
    (natStr n).data ≠ []
    ∧ (∀ c ∈ (natStr n).data, c.isDigit = true)
    ∧ ((natStr n).data).foldl (fun acc c => 10 * acc + digitVal c) 0 = n :=
  natDigitsAux_spec (n + 1) n (by omega)

theorem pyParseNat_natStr (n : Nat) : pyParseNat (natStr n) = some n := by
  obtain ⟨hne, hdig, hfold⟩ := natStr_data_spec n
  unfold pyParseNat parseNatChars
  rw [if_neg hne, if_pos (List.all_eq_true.mpr (fun c hc => hdig c hc)), hfold]

theorem isDigit_ne_minus {c : Char} (h : c.isDigit = true) : c ≠ '-' := by
  intro heq
  subst heq
  exact absurd h (by decide)

theorem isDigit_ne_space {c : Char} (h : c.isDigit = true) : c ≠ ' ' := by
  intro heq
  subst heq
  exact absurd h (by decide)

theorem isDigit_ne_newline {c : Char} (h : c.isDigit = true) : c ≠ '\n' := by
  intro heq
  subst heq
  exact absurd h (by decide)

theorem pyParseInt_cons {s : String} {c : Char} {rest : List Char}
    (h : s.data = c :: rest) :
    pyParseInt s = if c = '-' then (parseNatChars rest).map (fun n => -(Int.ofNat n))
      else (parseNatChars (c :: rest)).map (fun n => Int.ofNat n) := by
  unfold pyParseInt
  rw [h]

theorem pyParseInt_intStr (i : Int) : pyParseInt (intStr i) = some i := by
  by_cases hneg : i < 0
  · have hdata : (intStr i).data = '-' :: (natStr i.natAbs).data := by
      unfold intStr
      rw [if_pos hneg]
      rw [String.data_append]
      rfl
    rw [pyParseInt_cons hdata, if_pos rfl]
    have hp : parseNatChars (natStr i.natAbs).data = some i.natAbs := pyParseNat_natStr i.natAbs
    rw [hp]
    simp only [Option.map_some', Int.ofNat_eq_natCast]
    congr 1
    omega
  · have hdata : (intStr i).data = (natStr i.natAbs).data := by
      unfold intStr
      rw [if_neg hneg]
    obtain ⟨hne, hdig, _⟩ := natStr_data_spec i.natAbs
    cases hd : (natStr i.natAbs).data with
    | nil => exact absurd hd hne
    | cons c rest =>
      have hc : c.isDigit = true := hdig c (by rw [hd]; exact List.mem_cons_self c rest)
      rw [pyParseInt_cons (hdata.trans hd), if_neg (isDigit_ne_minus hc)]
      have hp : parseNatChars (c :: rest) = some i.natAbs := by
        rw [← hd]
        exact pyParseNat_natStr i.natAbs
      rw [hp]
      simp only [Option.map_some', Int.ofNat_eq_natCast]
      congr 1
      omega

/-- All characters of a printed integer are digits or the minus sign; in
particular neither spaces nor newlines occur, and the string is
nonempty. -/
theorem intStr_chars (i : Int) :
    (intStr i).data ≠ [] ∧ ∀ c ∈ (intStr i).data, c ≠ ' ' ∧ c ≠ '\n' := by
  by_cases hneg : i < 0
  · have hdata : (intStr i).data = '-' :: (natStr i.natAbs).data := by
      unfold intStr
      rw [if_pos hneg, String.data_append]
      rfl
    rw [hdata]
    refine ⟨by simp, ?_⟩
    intro c hc
    rcases List.mem_cons.mp hc with heq | hmem
    · subst heq
      exact ⟨by decide, by decide⟩
    · have := (natStr_data_spec i.natAbs).2.1 c hmem
      exact ⟨isDigit_ne_space this, isDigit_ne_newline this⟩
  · have hdata : (intStr i).data = (natStr i.natAbs).data := by
      unfold intStr
      rw [if_neg hneg]
    rw [hdata]
    refine ⟨(natStr_data_spec i.natAbs).1, ?_⟩
    intro c hc
    have := (natStr_data_spec i.natAbs).2.1 c hc
    exact ⟨isDigit_ne_space this, isDigit_ne_newline this⟩

theorem natStr_chars (n : Nat) :
    (natStr n).data ≠ [] ∧ ∀ c ∈ (natStr n).data, c ≠ ' ' ∧ c ≠ '\n' := by
  refine ⟨(natStr_data_spec n).1, ?_⟩
  intro c hc
  have := (natStr_data_spec n).2.1 c hc
  exact ⟨isDigit_ne_space this, isDigit_ne_newline this⟩

/-! ## Splitting lemmas -/

theorem splitCharAux_no_sep (sep : Char) :
    ∀ (cs acc : List Char), sep ∉ cs → splitCharAux sep cs acc = [acc.reverse ++ cs] := by
  intro cs
  induction cs with
  | nil => intro acc _; simp [splitCharAux]
  | cons c rest ih =>
    intro acc hmem
    have hc : c ≠ sep := fun h => hmem (h ▸ List.mem_cons_self c rest)
    rw [splitCharAux, if_neg hc, ih (c :: acc) (fun h => hmem (List.mem_cons_of_mem c h))]
    simp

theorem splitCharAux_split (sep : Char) :
    ∀ (xs : List Char), sep ∉ xs → ∀ (acc ys : List Char),
      splitCharAux sep (xs ++ sep :: ys) acc
        = (acc.reverse ++ xs) :: splitCharAux sep ys [] := by
  intro xs
  induction xs with
  | nil => intro _ acc ys; simp [splitCharAux]
  | cons x rest ih =>
    intro hmem acc ys
    have hx : x ≠ sep := fun h => hmem (h ▸ List.mem_cons_self x rest)
    rw [List.cons_append, splitCharAux, if_neg hx,
      ih (fun h => hmem (List.mem_cons_of_mem x h)) (x :: acc) ys]
    simp

theorem splitCharAux_flat_lines (nl : Char) :
    ∀ (ls : List (List Char)), (∀ l ∈ ls, nl ∉ l) →
      splitCharAux nl ((ls.map (fun l => l ++ [nl])).flatten) [] = ls ++ [[]] := by
  intro ls
  induction ls with
  | nil => intro _; simp [splitCharAux]
  | cons l rest ih =>
    intro h
    simp only [List.map_cons, List.flatten_cons, List.append_assoc, List.cons_append,
      List.nil_append]
    rw [splitCharAux_split nl l (h l (List.mem_cons_self l rest)) []]
    rw [ih (fun l' hl' => h l' (List.mem_cons_of_mem l hl'))]
    simp

/-! ## Clause line round trip -/

theorem spaceJoin_data_cons2 (s s2 : String) (rest : List String) :
    (spaceJoin (s :: s2 :: rest)).data = s.data ++ ' ' :: (spaceJoin (s2 :: rest)).data := by
  show (s ++ " " ++ spaceJoin (s2 :: rest)).data = _
  simp [String.data_append]

theorem spaceJoin_no_char (ch : Char) :
    ∀ (strs : List String), ch ≠ ' ' → (∀ s ∈ strs, ch ∉ s.data) →
      ch ∉ (spaceJoin strs).data := by
  intro strs
  induction strs with
  | nil => intro _ _ h; simp [spaceJoin] at h
  | cons s rest ih =>
    intro hsp hall
    cases rest with
    | nil =>
      show ch ∉ (spaceJoin [s]).data
      exact hall s (List.mem_cons_self s [])
    | cons s2 rest2 =>
      rw [spaceJoin_data_cons2]
      intro hmem
      rcases List.mem_append.mp hmem with h1 | h2
      · exact hall s (List.mem_cons_self s _) h1
      · rcases List.mem_cons.mp h2 with h3 | h4
        · exact hsp h3
        · exact ih hsp (fun t ht => hall t (List.mem_cons_of_mem s ht)) h4

theorem splitCharAux_spaceJoin (strs : List String) (hne : strs ≠ [])
    (hok : ∀ s ∈ strs, s.data ≠ [] ∧ ' ' ∉ s.data) :
    splitCharAux ' ' ((spaceJoin strs).data ++ ' ' :: ['0']) []
      = strs.map String.data ++ [['0']] := by
  induction strs with
  | nil => exact absurd rfl hne
  | cons s rest ih =>
    cases rest with
    | nil =>
      have hs := hok s (List.mem_cons_self s [])
      show splitCharAux ' ' ((spaceJoin [s]).data ++ ' ' :: ['0']) [] = _
      rw [show (spaceJoin [s]) = s from rfl]
      rw [splitCharAux_split ' ' s.data hs.2 [] ['0']]
      rw [splitCharAux_no_sep ' ' ['0'] [] (by decide)]
      simp
    | cons s2 rest2 =>
      have hs := hok s (List.mem_cons_self s _)
      rw [spaceJoin_data_cons2, List.append_assoc, List.cons_append]
      rw [splitCharAux_split ' ' s.data hs.2 []]
      rw [ih (by simp) (fun t ht => hok t (List.mem_cons_of_mem s ht))]
      simp

/-- The clause line without its trailing newline. -/
def lineBody (c : Clause) : String := spaceJoin (c.map intStr) ++ " 0"

theorem clauseLine_data (c : Clause) :
    (clauseLine c).data = (lineBody c).data ++ ['\n'] := by
  show (spaceJoin (c.map intStr) ++ " 0\n").data = (spaceJoin (c.map intStr) ++ " 0").data ++ ['\n']
  simp [String.data_append]

theorem lineBody_data (c : Clause) :
    (lineBody c).data = (spaceJoin (c.map intStr)).data ++ ' ' :: ['0'] := by
  show (spaceJoin (c.map intStr) ++ " 0").data = _
  simp [String.data_append]

theorem lineBody_no_newline (c : Clause) : '\n' ∉ (lineBody c).data := by
  rw [lineBody_data]
  intro hmem
  rcases List.mem_append.mp hmem with h1 | h2
  · exact spaceJoin_no_char '\n' (c.map intStr) (by decide)
      (fun s hs => by
        obtain ⟨i, _, hi⟩ := List.mem_map.mp hs
        exact fun hc => ((intStr_chars i).2 '\n' (hi ▸ hc)).2 rfl) h1
  · rcases List.mem_cons.mp h2 with h3 | h4
    · exact absurd h3 (by decide)
    · rcases List.mem_singleton.mp h4 with h5
      exact absurd h5 (by decide)

theorem mapM_option_map_eq_some {α β : Type} (f : α → Option β) (m : β → α)
    (l : List β) (h : ∀ x ∈ l, f (m x) = some x) :
    (l.map m).mapM f = some l := by
  induction l with
  | nil => rfl
  | cons x rest ih =>
    rw [List.map_cons, List.mapM_cons, h x (List.mem_cons_self x rest),
      ih (fun y hy => h y (List.mem_cons_of_mem x hy))]
    rfl

theorem mapM_option_append_some {α β : Type} (f : α → Option β)
    {l1 l2 : List α} {r1 r2 : List β} (h1 : l1.mapM f = some r1)
    (h2 : l2.mapM f = some r2) : (l1 ++ l2).mapM f = some (r1 ++ r2) := by
  induction l1 generalizing r1 with
  | nil =>
    have h0 : ([] : List β) = r1 := Option.some.inj h1
    subst h0
    simpa using h2
  | cons x rest ih =>
    rw [List.mapM_cons] at h1
    cases hx : f x with
    | none => rw [hx] at h1; simp at h1
    | some b =>
      rw [hx] at h1
      cases hr : rest.mapM f with
      | none => rw [hr] at h1; simp at h1
      | some rb =>
        rw [hr] at h1
        have : b :: rb = r1 := by simpa using h1
        subst this
        rw [List.cons_append, List.mapM_cons, hx, ih hr]
        rfl

theorem takeLitsToZero_append_zero :
    ∀ (c : Clause), (∀ l ∈ c, l ≠ 0) → takeLitsToZero (c ++ [0]) = some c := by
  intro c
  induction c with
  | nil => intro _; rfl
  | cons l rest ih =>
    intro h
    rw [List.cons_append, takeLitsToZero,
      if_neg (h l (List.mem_cons_self l rest)),
      ih (fun x hx => h x (List.mem_cons_of_mem l hx))]
    rfl

theorem parseClauseLine_lineBody (c : Clause) (hnz : ∀ l ∈ c, l ≠ 0) :
    parseClauseLine (lineBody c) = some c := by
  cases c with
  | nil => decide
  | cons l rest =>
    unfold parseClauseLine
    have hsplit : pySplit (lineBody (l :: rest)) ' '
        = (l :: rest).map intStr ++ ["0"] := by
      unfold pySplit
      rw [lineBody_data]
      rw [splitCharAux_spaceJoin ((l :: rest).map intStr) (by simp)
        (fun s hs => by
          obtain ⟨i, _, hi⟩ := List.mem_map.mp hs
          subst hi
          exact ⟨(intStr_chars i).1, fun hc => ((intStr_chars i).2 ' ' hc).1 rfl⟩)]
      rw [List.map_append, List.map_map]
      have hid : ((fun l => String.mk l) ∘ String.data) = (fun s : String => s) :=
        funext (fun _ => rfl)
      rw [hid, List.map_id']
      rfl
    rw [hsplit]
    have hfilter : (((l :: rest).map intStr ++ ["0"]).filter (fun t => t.data ≠ []))
        = (l :: rest).map intStr ++ ["0"] := by
      apply List.filter_eq_self.mpr
      intro s hs
      rcases List.mem_append.mp hs with h1 | h2
      · obtain ⟨i, _, hi⟩ := List.mem_map.mp h1
        subst hi
        simpa using (intStr_chars i).1
      · rw [List.mem_singleton.mp h2]
        decide
    rw [hfilter]
    have hmapm : (((l :: rest).map intStr ++ ["0"]).mapM pyParseInt)
        = some ((l :: rest) ++ [0]) := by
      apply mapM_option_append_some
      · exact mapM_option_map_eq_some pyParseInt intStr (l :: rest)
          (fun x _ => pyParseInt_intStr x)
      · decide
    rw [hmapm]
    exact takeLitsToZero_append_zero (l :: rest) hnz

/-! ## Whole-file round trip -/

theorem concatStrs_data (ls : List String) :
    (concatStrs ls).data = (ls.map String.data).flatten := by
  induction ls with
  | nil => rfl
  | cons s rest ih =>
    show (s ++ concatStrs rest).data = _
    rw [String.data_append, ih]
    simp

theorem natStr_no_space (n : Nat) : ' ' ∉ (natStr n).data :=
  fun hmem => ((natStr_chars n).2 ' ' hmem).1 rfl

theorem natStr_no_newline (n : Nat) : '\n' ∉ (natStr n).data :=
  fun hmem => ((natStr_chars n).2 '\n' hmem).2 rfl

theorem splitHeaderTokens (a b : Nat) :
    pySplit ("p cnf " ++ natStr a ++ " " ++ natStr b) ' '
      = ["p", "cnf", natStr a, natStr b] := by
  unfold pySplit
  have hdata : ("p cnf " ++ natStr a ++ " " ++ natStr b).data
      = ['p'] ++ ' ' :: (['c', 'n', 'f'] ++ ' ' :: ((natStr a).data ++ ' ' :: (natStr b).data)) := by
    simp [String.data_append]
  rw [hdata]
  rw [splitCharAux_split ' ' ['p'] (by decide)]
  rw [splitCharAux_split ' ' ['c', 'n', 'f'] (by decide)]
  rw [splitCharAux_split ' ' (natStr a).data (natStr_no_space a)]
  rw [splitCharAux_no_sep ' ' (natStr b).data [] (natStr_no_space b)]
  rfl

theorem parseHeader_header (a b : Nat) :
    parseHeader ((pySplit ("p cnf " ++ natStr a ++ " " ++ natStr b) ' ').filter
      (fun t => t.data ≠ [])) = some a := by
  rw [splitHeaderTokens]
  have hfilter : (["p", "cnf", natStr a, natStr b].filter (fun t => t.data ≠ []))
      = ["p", "cnf", natStr a, natStr b] := by
    apply List.filter_eq_self.mpr
    intro s hs
    rcases List.mem_cons.mp hs with h | hs
    · subst h; decide
    rcases List.mem_cons.mp hs with h | hs
    · subst h; decide
    rcases List.mem_cons.mp hs with h | hs
    · subst h; simpa using (natStr_data_spec a).1
    rcases List.mem_singleton.mp hs with h
    subst h; simpa using (natStr_data_spec b).1
  rw [hfilter]
  show (if ("p" : String) = "p" ∧ ("cnf" : String) = "cnf"
      then pyParseNat (natStr a) else none) = some a
  rw [if_pos ⟨rfl, rfl⟩]
  exact pyParseNat_natStr a

theorem header_no_newline (a b : Nat) :
    '\n' ∉ ("p cnf " ++ natStr a ++ " " ++ natStr b).data := by
  intro hmem
  simp only [String.data_append] at hmem
  rcases List.mem_append.mp hmem with h1 | h2
  · rcases List.mem_append.mp h1 with h3 | h4
    · rcases List.mem_append.mp h3 with h5 | h6
      · exact absurd h5 (by decide)
      · exact natStr_no_newline a h6
    · exact absurd h4 (by decide)
  · exact natStr_no_newline b h2

theorem parseDimacs_cons {txt header : String} {rest : List String}
    (h : pySplit txt '\n' = header :: rest) :
    parseDimacs txt
      = match parseHeader ((pySplit header ' ').filter (fun t => t.data ≠ [])) with
        | none => none
        | some nv =>
          ((rest.filter (fun l => l.data ≠ [])).mapM parseClauseLine).map
            (fun cs => (nv, cs)) := by
  unfold parseDimacs
  rw [h]

theorem writeDimacs_data (g : Gen) :
    (writeDimacs g).data
      = ("p cnf " ++ natStr (g.interner.nextVar - 1) ++ " " ++ natStr g.clauses.length).data
        ++ '\n' :: ((g.clauses.map (fun c => (lineBody c).data)).map
            (fun l => l ++ ['\n'])).flatten := by
  unfold writeDimacs
  simp only [String.data_append]
  rw [concatStrs_data]
  have h2 : (g.clauses.map clauseLine).map String.data
      = (g.clauses.map (fun c => (lineBody c).data)).map (fun l => l ++ ['\n']) := by
    rw [List.map_map, List.map_map]
    apply List.map_congr_left
    intro c _
    exact clauseLine_data c
  rw [h2]
  simp [String.data_append]

theorem pySplit_writeDimacs (g : Gen) :
    pySplit (writeDimacs g) '\n'
      = ("p cnf " ++ natStr (g.interner.nextVar - 1) ++ " " ++ natStr g.clauses.length)
        :: (g.clauses.map lineBody ++ [""]) := by
  unfold pySplit
  rw [writeDimacs_data]
  rw [splitCharAux_split '\n' _ (header_no_newline _ _)]
  rw [splitCharAux_flat_lines '\n' (g.clauses.map (fun c => (lineBody c).data))
    (fun l hl => by
      obtain ⟨c, _, hc⟩ := List.mem_map.mp hl
      exact hc ▸ lineBody_no_newline c)]
  simp only [List.reverse_nil, List.nil_append, List.map_cons, List.map_append, List.map_map]
  have hid : ((fun l => String.mk l) ∘ fun c => (lineBody c).data) = lineBody :=
    funext (fun _ => rfl)
  rw [hid]
  rfl

/-- C6: serializing any clause store with write_dimacs and re-reading it
at the solver boundary reproduces the formula verbatim: the same
variable count and the same clause list (hence the same clause set).
The hypothesis restates the CNF-formula invariant that every literal has
a positive magnitude. -/
theorem c6_dimacs_round_trip (g : Gen)
    (hnz : ∀ c ∈ g.clauses, ∀ l ∈ c, l ≠ 0) :
    parseDimacs (writeDimacs g) = some (g.interner.nextVar - 1, g.clauses) := by
  rw [parseDimacs_cons (pySplit_writeDimacs g)]
  rw [parseHeader_header]
  show (((g.clauses.map lineBody ++ [""]).filter (fun l => l.data ≠ [])).mapM
      parseClauseLine).map (fun cs => (g.interner.nextVar - 1, cs))
    = some (g.interner.nextVar - 1, g.clauses)
  have hfilter : ((g.clauses.map lineBody ++ [""]).filter (fun l => l.data ≠ []))
      = g.clauses.map lineBody := by
    rw [List.filter_append]
    have h1 : (g.clauses.map lineBody).filter (fun l => l.data ≠ [])
        = g.clauses.map lineBody := by
      apply List.filter_eq_self.mpr
      intro s hs
      obtain ⟨c, _, hc⟩ := List.mem_map.mp hs
      subst hc
      simp [lineBody_data]
    rw [h1]
    simp
  rw [hfilter]
  rw [mapM_option_map_eq_some parseClauseLine lineBody g.clauses
    (fun c hc => parseClauseLine_lineBody c (hnz c hc))]
  rfl

/-- Witness for C6: the round trip at the concrete formula generated for
the two-state automaton and the word x. -/
theorem c6_dimacs_round_trip_witness :
    parseDimacs (writeDimacs (generateCnf nfaCex wordCex))
      = some ((generateCnf nfaCex wordCex).interner.nextVar - 1,
          (generateCnf nfaCex wordCex).clauses) :=
  c6_dimacs_round_trip (generateCnf nfaCex wordCex) (by decide)

/-! ## Exact output format (C7) -/

theorem spaceJoin_data_append_zero :
    ∀ (strs : List String), strs ≠ [] →
      (spaceJoin (strs ++ ["0"])).data = (spaceJoin strs).data ++ [' ', '0'] := by
  intro strs
  induction strs with
  | nil => intro h; exact absurd rfl h
  | cons s rest ih =>
    intro _
    cases rest with
    | nil =>
      show (s ++ " " ++ spaceJoin ["0"]).data = _
      simp [String.data_append, spaceJoin]
    | cons s2 rest2 =>
      show (s ++ " " ++ spaceJoin ((s2 :: rest2) ++ ["0"])).data = _
      rw [String.data_append, String.data_append, ih (by simp)]
      rw [spaceJoin_data_cons2]
      simp

theorem clauseLine_eq_spec_of_ne_nil (c : Clause) (h : c ≠ []) :
    clauseLine c = dimacsLineSpec c := by
  apply String.ext
  rw [clauseLine_data, lineBody_data]
  show _ = (spaceJoin (c.map intStr ++ ["0"]) ++ "\n").data
  rw [String.data_append, spaceJoin_data_append_zero (c.map intStr) (by
    intro hmap
    exact h (List.map_eq_nil_iff.mp hmap))]

/-- C7 counterexample: the formula generated for a valid automaton with
no final states contains an empty clause, and its write_dimacs output
differs from the exact format the claim describes (the empty clause's
line carries a leading space before the terminating 0). -/
theorem c7_counterexample_empty_clause_line :
    writeDimacs (generateCnf nfaNoFinal []) ≠ dimacsSpecFormat (generateCnf nfaNoFinal []) := by
  decide

/-- C7 amended: for every generator state whose counter matches the
interned-variable count (an invariant of both encoders) and all of whose
clauses are non-empty, write_dimacs produces exactly the claimed format:
the header line with the interned-variable and clause counts, then one
line per clause in insertion order, the literals and the terminating 0
separated by single spaces and followed by a newline.  (For an empty
clause the code writes an extra leading space before the 0.) -/
theorem c7_amended_dimacs_format (g : Gen)
    (hwf : g.interner.nextVar = g.interner.varMap.length + 1)
    (hne : ∀ c ∈ g.clauses, c ≠ []) :
    writeDimacs g = dimacsSpecFormat g := by
  unfold writeDimacs dimacsSpecFormat
  rw [hwf, Nat.add_sub_cancel]
  have hmap : g.clauses.map clauseLine = g.clauses.map dimacsLineSpec :=
    List.map_congr_left (fun c hc => clauseLine_eq_spec_of_ne_nil c (hne c hc))
  rw [hmap]

/-- Witness for the amended C7 at the concrete generated formula of the
two-state automaton (all clauses non-empty). -/
theorem c7_amended_dimacs_format_witness :
    writeDimacs (generateCnf nfaCex wordCex)
      = dimacsSpecFormat (generateCnf nfaCex wordCex) :=
  c7_amended_dimacs_format (generateCnf nfaCex wordCex) (by decide) (by decide)

/-! ## Combinations are exactly the sublists of the given length -/

theorem mem_combos_iff {α : Type} :
    ∀ (l : List α) (r : Nat) (c : List α),
      c ∈ combos r l ↔ c.Sublist l ∧ c.length = r := by
  intro l
  induction l with
  | nil =>
    intro r c
    cases r with
    | zero =>
      simp only [combos, List.mem_singleton]
      constructor
      · intro h; subst h; exact ⟨List.Sublist.refl [], rfl⟩
      · intro ⟨hs, _⟩; exact List.sublist_nil.mp hs
    | succ r =>
      simp only [combos, List.not_mem_nil, false_iff, not_and]
      intro hs
      rw [List.sublist_nil.mp hs]
      simp
  | cons x xs ih =>
    intro r c
    cases r with
    | zero =>
      simp only [combos, List.mem_singleton]
      constructor
      · intro h; subst h; exact ⟨List.nil_sublist _, rfl⟩
      · intro ⟨_, hl⟩; exact List.length_eq_zero.mp hl
    | succ r =>
      simp only [combos, List.mem_append, List.mem_map]
      constructor
      · rintro (⟨c', hc', rfl⟩ | hc)
        · obtain ⟨hs, hl⟩ := (ih r c').mp hc'
          exact ⟨List.Sublist.cons₂ x hs, by simp [hl]⟩
        · obtain ⟨hs, hl⟩ := (ih (r + 1) c).mp hc
          exact ⟨List.Sublist.cons x hs, hl⟩
      · rintro ⟨hs, hl⟩
        cases hs with
        | cons _ h => exact Or.inr ((ih (r + 1) c).mpr ⟨h, hl⟩)
        | cons₂ _ h =>
          exact Or.inl ⟨_, (ih r _).mpr ⟨h, by simpa using hl⟩, rfl⟩

theorem exists_sublist_len_mem {α : Type} :
    ∀ (l : List α) (t : α), t ∈ l → ∀ r : Nat, 1 ≤ r → r ≤ l.length →
      ∃ c : List α, c.Sublist l ∧ c.length = r ∧ t ∈ c := by
  intro l
  induction l with
  | nil => intro t ht; simp at ht
  | cons x xs ih =>
    intro t ht r hr1 hrl
    rcases List.mem_cons.mp ht with heq | hmem
    · subst heq
      refine ⟨t :: xs.take (r - 1), List.Sublist.cons₂ t (List.take_sublist _ _), ?_, ?_⟩
      · simp only [List.length_cons, List.length_take]
        simp only [List.length_cons] at hrl
        omega
      · exact List.mem_cons_self t _
    · by_cases hsz : r ≤ xs.length
      · obtain ⟨c, hc1, hc2, hc3⟩ := ih t hmem r hr1 hsz
        exact ⟨c, List.Sublist.cons x hc1, hc2, hc3⟩
      · refine ⟨x :: xs, List.Sublist.refl _, ?_, List.mem_cons_of_mem x hmem⟩
        simp only [List.length_cons] at hrl ⊢
        omega

/-! ## Cardinality counting from the combination clauses -/

theorem length_filter_le_of_sublists {α : Type} (l : List α) (p : α → Bool) (k : Nat)
    (h : ∀ c : List α, c.Sublist l → c.length = k + 1 → ∃ t ∈ c, p t = false) :
    (l.filter p).length ≤ k := by
  by_contra hgt
  push_neg at hgt
  set c := (l.filter p).take (k + 1) with hc
  have hsub : c.Sublist l := (List.take_sublist _ _).trans (List.filter_sublist l)
  have hlen : c.length = k + 1 := by
    rw [hc, List.length_take]
    omega
  obtain ⟨t, htc, htp⟩ := h c hsub hlen
  have : t ∈ l.filter p := List.mem_of_mem_take htc
  have := List.of_mem_filter this
  rw [htp] at this
  exact Bool.noConfusion this

theorem length_filter_ge_of_sublists {α : Type} (l : List α) (p : α → Bool) (k : Nat)
    (hk : 1 ≤ k) (hkl : k ≤ l.length)
    (h : ∀ c : List α, c.Sublist l → c.length = l.length - k + 1 → ∃ t ∈ c, p t = true) :
    k ≤ (l.filter p).length := by
  by_contra hlt
  push_neg at hlt
  have hsplit : (l.filter p).length + (l.filter (fun a => !p a)).length = l.length :=
    (List.length_eq_length_filter_add p).symm
  have hq : l.length - k + 1 ≤ (l.filter (fun a => !p a)).length := by omega
  set c := (l.filter (fun a => !p a)).take (l.length - k + 1) with hc
  have hsub : c.Sublist l := (List.take_sublist _ _).trans (List.filter_sublist l)
  have hlen : c.length = l.length - k + 1 := by
    rw [hc, List.length_take]
    omega
  obtain ⟨t, htc, htp⟩ := h c hsub hlen
  have : t ∈ l.filter (fun a => !p a) := List.mem_of_mem_take htc
  have := List.of_mem_filter this
  rw [htp] at this
  exact Bool.noConfusion this

/-! ## Structure of the generated variable names -/

theorem xName_data (t : Teacher) : (xName t).data = 'x' :: '_' :: t.name.data := by
  show ("x_" ++ t.name).data = _
  rw [String.data_append]
  rfl

theorem yName_data (t : Teacher) (s : String) :
    (yName t s).data = 'y' :: '_' :: (t.name.data ++ '_' :: s.data) := by
  show ((("y_" ++ t.name) ++ "_") ++ s).data = _
  simp [String.data_append]

theorem startsWithX_xName (t : Teacher) : startsWithX (xName t) = true := by
  unfold startsWithX
  rw [xName_data]
  rfl

theorem startsWithX_yName (t : Teacher) (s : String) :
    startsWithX (yName t s) = false := by
  unfold startsWithX
  rw [yName_data]
  rfl

theorem xName_name_inj {t1 t2 : Teacher} (h : xName t1 = xName t2) :
    t1.name = t2.name := by
  have hd := congrArg String.data h
  rw [xName_data, xName_data] at hd
  apply String.ext
  simpa using hd

theorem splitCharAux_head_shape (sep : Char) :
    ∀ (cs acc : List Char), ∃ tail, splitCharAux sep cs acc
      = (acc.reverse ++ cs.takeWhile (fun c => c != sep)) :: tail := by
  intro cs
  induction cs with
  | nil => intro acc; exact ⟨[], by simp [splitCharAux]⟩
  | cons c cs' ih =>
    intro acc
    by_cases hc : c = sep
    · refine ⟨splitCharAux sep cs' [], ?_⟩
      rw [splitCharAux, if_pos hc]
      have hb : (c != sep) = false := by simp [hc]
      simp [List.takeWhile_cons, hb]
    · obtain ⟨tail, htail⟩ := ih (c :: acc)
      refine ⟨tail, ?_⟩
      rw [splitCharAux, if_neg hc, htail]
      have hne : (c != sep) = true := by simp [hc]
      simp [List.takeWhile_cons, hne]

/-- The decoder's name transformation on a select variable: what stands
between the first and the second underscore, i.e. the teacher's name cut
at its own first underscore. -/
theorem trunc_xName (t : Teacher) :
    (pySplit (xName t) '_').getD 1 ""
      = String.mk (t.name.data.takeWhile (fun c => c != '_')) := by
  unfold pySplit
  rw [xName_data]
  rw [show ('x' :: '_' :: t.name.data) = (['x'] ++ '_' :: t.name.data) from rfl]
  rw [splitCharAux_split '_' ['x'] (by decide)]
  obtain ⟨tail, htail⟩ := splitCharAux_head_shape '_' t.name.data []
  rw [htail]
  simp

theorem takeWhile_eq_self_of_no_underscore {l : List Char} (h : ('_' : Char) ∉ l) :
    l.takeWhile (fun c => c != '_') = l := by
  induction l with
  | nil => rfl
  | cons c rest ih =>
    have hc : c ≠ '_' := fun heq => h (heq ▸ List.mem_cons_self c rest)
    have hb : (c != '_') = true := by simp [hc]
    rw [List.takeWhile_cons, hb]
    simp only [if_pos]
    rw [ih (fun hm => h (List.mem_cons_of_mem c hm))]

/-! ## Structure of a successful set-cover generation -/

/-- The names the set-cover encoder may intern. -/
def QSC (p : TSCover) : String → Prop := fun a =>
  (∃ t ∈ p.teachers, ∃ s ∈ p.subjects, a = yName t s) ∨ ∃ t ∈ p.teachers, a = xName t

theorem generateCnfSC_some_elim (p : TSCover) {g : Gen}
    (hgen : generateCnfSC p = some g) :
    0 ≤ (p.teachers.length : Int) - (p.k : Int) + 1
    ∧ g = phaseAtLeast
        (combos ((p.teachers.length : Int) - (p.k : Int) + 1).toNat p.teachers)
        (phaseAtMost p (phaseCover p (phasePin p gen0))) := by
  have hr : 0 ≤ (p.teachers.length : Int) - (p.k : Int) + 1 := by
    by_contra hneg
    rw [generateCnfSC_eq_none p (by omega)] at hgen
    exact Option.noConfusion hgen
  refine ⟨hr, ?_⟩
  rw [generateCnfSC_eq_some p hr] at hgen
  exact (Option.some.inj hgen).symm

theorem phasePin_genStepQ (p : TSCover) (g : Gen) :
    GenStep (QSC p) g (phasePin p g) := by
  apply genStep_foldl
  intro g' t ht
  apply genStep_foldl
  intro g'' s hs
  exact pinStep_genStep t g'' s (Or.inl ⟨t, ht, s, hs, rfl⟩)

theorem phaseCover_genStepQ (p : TSCover) (g : Gen) :
    GenStep (QSC p) g (phaseCover p g) := by
  apply genStep_foldl
  intro g' s _
  apply emitStep_genStep
  intro a ha
  obtain ⟨t, ht, rfl⟩ := List.mem_map.mp ha
  exact Or.inr ⟨t, List.mem_of_mem_filter ht, rfl⟩

theorem phaseAtMost_genStepQ (p : TSCover) (g : Gen) :
    GenStep (QSC p) g (phaseAtMost p g) := by
  apply genStep_foldl
  intro g' c hc
  apply emitStep_genStep
  intro a ha
  obtain ⟨t, ht, rfl⟩ := List.mem_map.mp ha
  have hsub := ((mem_combos_iff p.teachers (p.k + 1) c).mp hc).1
  exact Or.inr ⟨t, hsub.subset ht, rfl⟩

theorem phaseAtLeast_genStepQ (p : TSCover) (r : Nat) (g : Gen) :
    GenStep (QSC p) g (phaseAtLeast (combos r p.teachers) g) := by
  apply genStep_foldl
  intro g' c hc
  apply emitStep_genStep
  intro a ha
  obtain ⟨t, ht, rfl⟩ := List.mem_map.mp ha
  have hsub := ((mem_combos_iff p.teachers r c).mp hc).1
  exact Or.inr ⟨t, hsub.subset ht, rfl⟩

theorem generateCnfSC_genStep (p : TSCover) {g : Gen}
    (hgen : generateCnfSC p = some g) : GenStep (QSC p) gen0 g := by
  obtain ⟨_, hg⟩ := generateCnfSC_some_elim p hgen
  rw [hg]
  exact genStep_trans (phasePin_genStepQ p gen0)
    (genStep_trans (phaseCover_genStepQ p _)
      (genStep_trans (phaseAtMost_genStepQ p _) (phaseAtLeast_genStepQ p _ _)))

theorem generateCnfSC_wf (p : TSCover) {g : Gen}
    (hgen : generateCnfSC p = some g) : g.interner.wf :=
  (generateCnfSC_genStep p hgen).2.1 empty_wf

theorem generateCnfSC_keys_classify (p : TSCover) {g : Gen}
    (hgen : generateCnfSC p = some g) :
    ∀ nm ∈ g.interner.varMap.map Prod.fst, startsWithX nm = true →
      ∃ t ∈ p.teachers, nm = xName t := by
  intro nm hmem hsx
  rcases (generateCnfSC_genStep p hgen).2.2.2 nm hmem with h0 | hQ
  · simp [gen0, Interner.empty] at h0
  · rcases hQ with ⟨t, _, s, _, rfl⟩ | hx
    · rw [startsWithX_yName] at hsx
      exact Bool.noConfusion hsx
    · exact hx

theorem generateCnfSC_all_x_interned (p : TSCover) {g : Gen}
    (hval : p.valid) (hgen : generateCnfSC p = some g)
    (hk : p.k ≤ p.teachers.length) :
    ∀ t ∈ p.teachers, (g.interner.varMap.lookup (xName t)).isSome = true := by
  obtain ⟨hr, hg⟩ := generateCnfSC_some_elim p hgen
  have hk1 : 1 ≤ p.k := hval.2.2
  have htoNat : ((p.teachers.length : Int) - (p.k : Int) + 1).toNat
      = p.teachers.length - p.k + 1 := by omega
  intro t ht
  obtain ⟨c, hcs, hcl, hct⟩ := exists_sublist_len_mem p.teachers t ht
    (p.teachers.length - p.k + 1) (by omega) (by omega)
  have hcm : c ∈ combos ((p.teachers.length : Int) - (p.k : Int) + 1).toNat p.teachers := by
    rw [htoNat]
    exact (mem_combos_iff p.teachers _ c).mpr ⟨hcs, hcl⟩
  have hfold := emitFold_mem (fun c => c.map xName) posL
    (combos ((p.teachers.length : Int) - (p.k : Int) + 1).toNat p.teachers) c hcm
    (phaseAtMost p (phaseCover p (phasePin p gen0)))
  rw [hg]
  exact hfold.2 (xName t) (List.mem_map.mpr ⟨t, hct, rfl⟩)

theorem clause_lift {Q : String → Prop} {g g' : Gen} (hstep : GenStep Q g g')
    (ns : List String) (h : Nat → Int)
    (hsome : ∀ nm ∈ ns, (g.interner.varMap.lookup nm).isSome = true)
    (hmem : (ns.map (fun nm => h ((g.interner.varMap.lookup nm).getD 0))) ∈ g.clauses) :
    (ns.map (fun nm => h ((g'.interner.varMap.lookup nm).getD 0))) ∈ g'.clauses := by
  have heq : ns.map (fun nm => h ((g'.interner.varMap.lookup nm).getD 0))
      = ns.map (fun nm => h ((g.interner.varMap.lookup nm).getD 0)) := by
    apply List.map_congr_left
    intro nm hnm
    obtain ⟨v, hv⟩ := Option.isSome_iff_exists.mp (hsome nm hnm)
    rw [hv, hstep.1 nm v hv]
  rw [heq]
  exact mem_clauses_of_genStep hstep hmem

theorem cover_clause_mem (p : TSCover) {g : Gen}
    (hgen : generateCnfSC p = some g) {s : String} (hs : s ∈ p.subjects) :
    ((capable p s).map (fun t => posL (xVar g t))) ∈ g.clauses := by
  obtain ⟨hr, hg⟩ := generateCnfSC_some_elim p hgen
  have hfold := emitFold_mem (fun s => (capable p s).map xName) posL
    p.subjects s hs (phasePin p gen0)
  have hstep : GenStep (QSC p) (phaseCover p (phasePin p gen0)) g := by
    rw [hg]
    exact genStep_trans (phaseAtMost_genStepQ p _) (phaseAtLeast_genStepQ p _ _)
  have hlift := clause_lift hstep ((capable p s).map xName) posL
    (fun nm hnm => hfold.2 nm hnm) hfold.1
  rw [List.map_map] at hlift
  exact hlift

theorem atMost_clause_mem (p : TSCover) {g : Gen}
    (hgen : generateCnfSC p = some g) {c : List Teacher}
    (hc : c ∈ combos (p.k + 1) p.teachers) :
    (c.map (fun t => negL (xVar g t))) ∈ g.clauses := by
  obtain ⟨hr, hg⟩ := generateCnfSC_some_elim p hgen
  have hfold := emitFold_mem (fun c : List Teacher => c.map xName) negL
    (combos (p.k + 1) p.teachers) c hc (phaseCover p (phasePin p gen0))
  have hstep : GenStep (QSC p) (phaseAtMost p (phaseCover p (phasePin p gen0))) g := by
    rw [hg]
    exact phaseAtLeast_genStepQ p _ _
  have hlift := clause_lift hstep (c.map xName) negL
    (fun nm hnm => hfold.2 nm hnm) hfold.1
  rw [List.map_map] at hlift
  exact hlift

theorem atLeast_clause_mem (p : TSCover) {g : Gen}
    (hgen : generateCnfSC p = some g) {c : List Teacher}
    (hc : c ∈ combos ((p.teachers.length : Int) - (p.k : Int) + 1).toNat p.teachers) :
    (c.map (fun t => posL (xVar g t))) ∈ g.clauses := by
  obtain ⟨hr, hg⟩ := generateCnfSC_some_elim p hgen
  have hfold := emitFold_mem (fun c : List Teacher => c.map xName) posL
    (combos ((p.teachers.length : Int) - (p.k : Int) + 1).toNat p.teachers) c hc
    (phaseAtMost p (phaseCover p (phasePin p gen0)))
  have hlift := clause_lift (@genStep_refl (QSC p) g) (c.map xName) posL
    (fun nm hnm => hg ▸ hfold.2 nm hnm) (hg ▸ hfold.1)
  rw [List.map_map] at hlift
  exact hlift

/-! ## What the set-cover decoder reads off a model -/

theorem modelOf_filterMap_core (A : Nat → Bool) (look : Nat → Option String) :
    ∀ (m : List (String × Nat)) (v0 : Nat), 1 ≤ v0 →
      m.map Prod.snd = List.range' v0 m.length →
      (∀ e ∈ m, look e.2 = some e.1) →
      ((List.range' v0 m.length).map
          (fun v => if A v then (v : Int) else -(v : Int))).filterMap
        (fun (lit : Int) =>
          if 0 < lit then
            match look lit.toNat with
            | some nm => if startsWithX nm then some nm else none
            | none => none
          else none)
      = (m.filter (fun e => A e.2 && startsWithX e.1)).map Prod.fst := by
  intro m
  induction m with
  | nil => intro v0 _ _ _; rfl
  | cons e m' ih =>
    intro v0 hv0 hvals hlook
    rw [List.map_cons, List.length_cons, List.range'_succ] at hvals
    have he2 : e.2 = v0 := (List.cons_eq_cons.mp hvals).1
    have hvals' : m'.map Prod.snd = List.range' (v0 + 1) m'.length :=
      (List.cons_eq_cons.mp hvals).2
    rw [List.length_cons, List.range'_succ, List.map_cons, List.filterMap_cons]
    have hrest := ih (v0 + 1) (by omega) hvals'
      (fun e' he' => hlook e' (List.mem_cons_of_mem e he'))
    have hpos : (0 : Int) < (v0 : Int) := by exact_mod_cast hv0
    have htn : ((v0 : Int)).toNat = v0 := Int.toNat_natCast v0
    have hlk : look v0 = some e.1 := he2 ▸ hlook e (List.mem_cons_self e m')
    by_cases hA : A v0 = true
    · have hhd : (if A v0 = true then ((v0 : Int)) else -((v0 : Int))) = ((v0 : Int)) := by
        rw [hA]
        simp
      by_cases hsx : startsWithX e.1 = true
      · rw [List.filter_cons_of_pos (by rw [he2, hA, hsx]; rfl), List.map_cons]
        rw [hhd, if_pos hpos, htn, hlk]
        simp only [hsx, if_true]
        rw [hrest]
      · rw [List.filter_cons_of_neg (by rw [he2, hA]; simp [hsx])]
        rw [hhd, if_pos hpos, htn, hlk]
        have hsxf : startsWithX e.1 = false := Bool.eq_false_iff.mpr hsx
        simp only [hsxf, if_false]
        exact hrest
    · have hAf : A v0 = false := Bool.eq_false_iff.mpr hA
      have hneg : ¬((0 : Int) < -(v0 : Int)) := by omega
      have hhd : (if A v0 = true then ((v0 : Int)) else -((v0 : Int))) = -((v0 : Int)) := by
        rw [hAf]
        simp
      rw [List.filter_cons_of_neg (by rw [he2, hAf]; simp)]
      rw [hhd, if_neg hneg]
      exact hrest

theorem extractTeachers_eq (A : Nat → Bool) (it : Interner) (hwf : it.wf) :
    extractTeachers (getVarMapping it) (modelOf A it.varMap.length)
      = ((it.varMap.filter (fun e => A e.2 && startsWithX e.1)).map Prod.fst).map
        (fun nm => (pySplit nm '_').getD 1 "") := by
  have hcore := modelOf_filterMap_core A (fun v => (getVarMapping it).lookup v)
    it.varMap 1 (le_refl 1) hwf.1
    (fun e he => getVarMapping_lookup_of_lookup hwf
      (lookup_eq_some_of_mem_of_nodup hwf.2.2 he))
  unfold extractTeachers modelOf
  rw [hcore]

theorem string_append_left_cancel {pre a b : String} (h : pre ++ a = pre ++ b) :
    a = b := by
  apply String.ext
  have hd := congrArg String.data h
  rw [String.data_append, String.data_append] at hd
  exact List.append_cancel_left hd

theorem teachers_map_xName_nodup (p : TSCover) (hval : p.valid) :
    (p.teachers.map xName).Nodup := by
  have : p.teachers.map xName = (p.teachers.map Teacher.name).map (fun nm => "x_" ++ nm) := by
    rw [List.map_map]
    rfl
  rw [this]
  exact hval.1.map (fun a b hab => string_append_left_cancel hab)

theorem xKeys_perm (p : TSCover) {g : Gen} (hval : p.valid)
    (hgen : generateCnfSC p = some g) (hk : p.k ≤ p.teachers.length) :
    (((g.interner.varMap.filter (fun e => startsWithX e.1)).map Prod.fst)).Perm
      (p.teachers.map xName) := by
  have hwf := generateCnfSC_wf p hgen
  have hnd1 : ((g.interner.varMap.filter (fun e => startsWithX e.1)).map Prod.fst).Nodup := by
    have hs : ((g.interner.varMap.filter (fun e => startsWithX e.1)).map Prod.fst).Sublist
        (g.interner.varMap.map Prod.fst) :=
      (List.filter_sublist g.interner.varMap).map Prod.fst
    exact hwf.2.2.sublist hs
  have hnd2 := teachers_map_xName_nodup p hval
  rw [List.perm_ext_iff_of_nodup hnd1 hnd2]
  intro nm
  constructor
  · intro hmem
    obtain ⟨e, he, rfl⟩ := List.mem_map.mp hmem
    have hsx : startsWithX e.1 = true := (List.mem_filter.mp he).2
    have hkey : e.1 ∈ g.interner.varMap.map Prod.fst :=
      List.mem_map.mpr ⟨e, List.mem_of_mem_filter he, rfl⟩
    obtain ⟨t, ht, heq⟩ := generateCnfSC_keys_classify p hgen e.1 hkey hsx
    exact heq ▸ List.mem_map.mpr ⟨t, ht, rfl⟩
  · intro hmem
    obtain ⟨t, ht, rfl⟩ := List.mem_map.mp hmem
    obtain ⟨v, hv⟩ := Option.isSome_iff_exists.mp
      (generateCnfSC_all_x_interned p hval hgen hk t ht)
    have he : (xName t, v) ∈ g.interner.varMap := mem_of_lookup_eq_some hv
    have hef : (xName t, v) ∈ g.interner.varMap.filter (fun e => startsWithX e.1) :=
      List.mem_filter.mpr ⟨he, startsWithX_xName t⟩
    exact List.mem_map.mpr ⟨(xName t, v), hef, rfl⟩

theorem extractTeachers_perm (p : TSCover) (A : Nat → Bool) {g : Gen}
    (hval : p.valid) (hgen : generateCnfSC p = some g)
    (hk : p.k ≤ p.teachers.length) :
    (extractTeachers (getVarMapping g.interner) (modelOf A (g.interner.nextVar - 1))).Perm
      ((p.teachers.filter (fun t => A (xVar g t))).map
        (fun t => (pySplit (xName t) '_').getD 1 "")) := by
  have hwf := generateCnfSC_wf p hgen
  have hN : g.interner.nextVar - 1 = g.interner.varMap.length := by
    rw [hwf.2.1]
    omega
  rw [hN, extractTeachers_eq A g.interner hwf]
  have hperm1 := xKeys_perm p hval hgen hk
  have hperm2 := hperm1.filter (fun nm => A ((g.interner.varMap.lookup nm).getD 0))
  have hL : ((g.interner.varMap.filter (fun e => startsWithX e.1)).map Prod.fst).filter
        (fun nm => A ((g.interner.varMap.lookup nm).getD 0))
      = (g.interner.varMap.filter (fun e => A e.2 && startsWithX e.1)).map Prod.fst := by
    rw [List.filter_map]
    congr 1
    rw [List.filter_filter]
    apply List.filter_congr
    intro e he
    have hlk : g.interner.varMap.lookup e.1 = some e.2 :=
      lookup_eq_some_of_mem_of_nodup hwf.2.2 he
    show (A ((g.interner.varMap.lookup e.1).getD 0) && startsWithX e.1)
        = (A e.2 && startsWithX e.1)
    rw [hlk]
    rfl
  have hR : (p.teachers.map xName).filter
        (fun nm => A ((g.interner.varMap.lookup nm).getD 0))
      = (p.teachers.filter (fun t => A (xVar g t))).map xName := by
    rw [List.filter_map]
    rfl
  rw [hL, hR] at hperm2
  have hfinal := hperm2.map (fun nm => (pySplit nm '_').getD 1 "")
  simp only [List.map_map] at hfinal ⊢
  exact hfinal

/-! ## Literal evaluation helpers -/

theorem evalLit_posL (A : Nat → Bool) {v : Nat} (hv : 1 ≤ v) :
    evalLit A (posL v) = A v := by
  unfold evalLit posL
  rw [if_pos (by exact_mod_cast hv)]
  rw [Int.toNat_natCast]

theorem evalLit_negL (A : Nat → Bool) {v : Nat} (hv : 1 ≤ v) :
    evalLit A (negL v) = !A v := by
  unfold evalLit negL
  have hpos : (0 : Int) < (v : Int) := by exact_mod_cast hv
  rw [if_neg (by omega)]
  rw [neg_neg, Int.toNat_natCast]

theorem evalClause_of_satisfies {A : Nat → Bool} {cs : List Clause} {c : Clause}
    (hsat : satisfies A cs = true) (hc : c ∈ cs) : evalClause A c = true := by
  unfold satisfies at hsat
  exact List.all_eq_true.mp hsat c hc

theorem xVar_pos (p : TSCover) {g : Gen} (hval : p.valid)
    (hgen : generateCnfSC p = some g) (hk : p.k ≤ p.teachers.length)
    {t : Teacher} (ht : t ∈ p.teachers) : 1 ≤ xVar g t := by
  obtain ⟨v, hv⟩ := Option.isSome_iff_exists.mp
    (generateCnfSC_all_x_interned p hval hgen hk t ht)
  have hxv : xVar g t = v := by
    unfold xVar
    rw [hv]
    rfl
  rw [hxv]
  exact lookup_ge_one (generateCnfSC_wf p hgen) hv

/-! ## Claim C3 -/

/-- C3: for every valid set-cover instance, whenever the generated
formula is satisfiable the decoded teacher list has size exactly k, and
every required subject is taught by some selected teacher (so the union
of the selected teachers' capabilities covers the required subjects). -/
theorem c3_setcover_decode_size_and_coverage (p : TSCover) (A : Nat → Bool) (g : Gen)
    (hval : p.valid) (hgen : generateCnfSC p = some g)
    (hsat : satisfies A g.clauses = true) :
    (extractTeachers (getVarMapping g.interner)
        (modelOf A (g.interner.nextVar - 1))).length = p.k
    ∧ ∀ s ∈ p.subjects, ∃ t ∈ p.teachers, A (xVar g t) = true ∧ s ∈ t.subjects := by
  obtain ⟨hr, _⟩ := generateCnfSC_some_elim p hgen
  have hk1 : 1 ≤ p.k := hval.2.2
  by_cases hkeq : p.k = p.teachers.length + 1
  · exfalso
    have ht0 : ((p.teachers.length : Int) - (p.k : Int) + 1).toNat = 0 := by omega
    have hc : ([] : List Teacher)
        ∈ combos ((p.teachers.length : Int) - (p.k : Int) + 1).toNat p.teachers := by
      rw [ht0]
      cases p.teachers <;> exact List.mem_singleton.mpr rfl
    have hmem := atLeast_clause_mem p hgen hc
    rw [List.map_nil] at hmem
    have hfalse := satisfies_eq_false_of_nil_mem g.clauses hmem A
    rw [hsat] at hfalse
    exact Bool.noConfusion hfalse
  · have hk : p.k ≤ p.teachers.length := by omega
    have hle : (p.teachers.filter (fun t => A (xVar g t))).length ≤ p.k := by
      apply length_filter_le_of_sublists
      intro c hcs hcl
      have hcm : c ∈ combos (p.k + 1) p.teachers :=
        (mem_combos_iff _ _ _).mpr ⟨hcs, hcl⟩
      have hcl2 := evalClause_of_satisfies hsat (atMost_clause_mem p hgen hcm)
      obtain ⟨lit, hlit, hlittrue⟩ := List.any_eq_true.mp hcl2
      obtain ⟨t, htc, rfl⟩ := List.mem_map.mp hlit
      refine ⟨t, htc, ?_⟩
      have ht : t ∈ p.teachers := hcs.subset htc
      rw [evalLit_negL A (xVar_pos p hval hgen hk ht)] at hlittrue
      simpa using hlittrue
    have hge : p.k ≤ (p.teachers.filter (fun t => A (xVar g t))).length := by
      apply length_filter_ge_of_sublists _ _ _ hk1 hk
      intro c hcs hcl
      have htoNat : ((p.teachers.length : Int) - (p.k : Int) + 1).toNat
          = p.teachers.length - p.k + 1 := by omega
      have hcm : c ∈ combos ((p.teachers.length : Int) - (p.k : Int) + 1).toNat p.teachers := by
        rw [htoNat]
        exact (mem_combos_iff _ _ _).mpr ⟨hcs, hcl⟩
      have hcl2 := evalClause_of_satisfies hsat (atLeast_clause_mem p hgen hcm)
      obtain ⟨lit, hlit, hlittrue⟩ := List.any_eq_true.mp hcl2
      obtain ⟨t, htc, rfl⟩ := List.mem_map.mp hlit
      refine ⟨t, htc, ?_⟩
      have ht : t ∈ p.teachers := hcs.subset htc
      rw [evalLit_posL A (xVar_pos p hval hgen hk ht)] at hlittrue
      exact hlittrue
    have hlen : (p.teachers.filter (fun t => A (xVar g t))).length = p.k :=
      le_antisymm hle hge
    constructor
    · have hperm := extractTeachers_perm p A hval hgen hk
      rw [hperm.length_eq, List.length_map, hlen]
    · intro s hs
      have hcl2 := evalClause_of_satisfies hsat (cover_clause_mem p hgen hs)
      obtain ⟨lit, hlit, hlittrue⟩ := List.any_eq_true.mp hcl2
      obtain ⟨t, htc, rfl⟩ := List.mem_map.mp hlit
      have htT : t ∈ p.teachers := List.mem_of_mem_filter htc
      have hsub : s ∈ t.subjects := by
        have := (List.mem_filter.mp htc).2
        simpa using this
      rw [evalLit_posL A (xVar_pos p hval hgen hk htT)] at hlittrue
      exact ⟨t, htT, hlittrue, hsub⟩

/-- The valid instance used as the C3 witness: teachers A (maths) and B
(science), both subjects required, k = 2. -/
def pW3 : TSCover := ⟨[⟨"A", ["m"]⟩, ⟨"B", ["s"]⟩], ["m", "s"], 2⟩

/-- A satisfying assignment for the formula of pW3: the pinned assign
variables and both select variables. -/
def aW3 : Nat → Bool := fun n => [1, 4, 5, 6].contains n

/-- Witness for C3 at a concrete satisfiable instance. -/
theorem c3_setcover_decode_size_and_coverage_witness :
    (extractTeachers (getVarMapping ((generateCnfSC pW3).getD gen0).interner)
      (modelOf aW3 (((generateCnfSC pW3).getD gen0).interner.nextVar - 1))).length = pW3.k :=
  (c3_setcover_decode_size_and_coverage pW3 aW3 ((generateCnfSC pW3).getD gen0)
    (by decide) (by decide) (by decide)).1

/-! ## Claim C9 -/

/-- C9: the set-cover decoder returns, for each true select variable,
exactly the piece of the variable name between the first and second
underscore: up to order, the decoded list is the selected teachers'
names cut at their first underscore; when no teacher name contains an
underscore this is exactly the selected teachers' names. -/
theorem c9_extract_trunc_at_underscore (p : TSCover) (A : Nat → Bool) (g : Gen)
    (hval : p.valid) (hgen : generateCnfSC p = some g)
    (hk : p.k ≤ p.teachers.length) :
    (extractTeachers (getVarMapping g.interner)
        (modelOf A (g.interner.nextVar - 1))).Perm
      ((p.teachers.filter (fun t => A (xVar g t))).map
        (fun t => String.mk (t.name.data.takeWhile (fun c => c != '_'))))
    ∧ ((∀ t ∈ p.teachers, ('_' : Char) ∉ t.name.data) →
      (extractTeachers (getVarMapping g.interner)
          (modelOf A (g.interner.nextVar - 1))).Perm
        ((p.teachers.filter (fun t => A (xVar g t))).map Teacher.name)) := by
  have hperm := extractTeachers_perm p A hval hgen hk
  have heq : (p.teachers.filter (fun t => A (xVar g t))).map
        (fun t => (pySplit (xName t) '_').getD 1 "")
      = (p.teachers.filter (fun t => A (xVar g t))).map
        (fun t => String.mk (t.name.data.takeWhile (fun c => c != '_'))) :=
    List.map_congr_left (fun t _ => trunc_xName t)
  rw [heq] at hperm
  refine ⟨hperm, fun hnou => hperm.trans (List.Perm.of_eq ?_)⟩
  apply List.map_congr_left
  intro t htf
  have ht : t ∈ p.teachers := List.mem_of_mem_filter htf
  rw [takeWhile_eq_self_of_no_underscore (hnou t ht)]

/-- The instance with an underscore in a teacher name used as the C9
witness. -/
def pW9 : TSCover := ⟨[⟨"a_b", ["m"]⟩], ["m"], 1⟩

/-- An assignment selecting the only teacher of pW9 (its select variable
is interned as 2). -/
def aW9 : Nat → Bool := fun n => n == 2

/-- Witness for C9: the decoded name of teacher a_b is the truncated a. -/
theorem c9_extract_trunc_at_underscore_witness :
    (extractTeachers (getVarMapping ((generateCnfSC pW9).getD gen0).interner)
        (modelOf aW9 (((generateCnfSC pW9).getD gen0).interner.nextVar - 1))).Perm
      ((pW9.teachers.filter (fun t => aW9 (xVar ((generateCnfSC pW9).getD gen0) t))).map
        (fun t => String.mk (t.name.data.takeWhile (fun c => c != '_')))) :=
  (c9_extract_trunc_at_underscore pW9 aW9 ((generateCnfSC pW9).getD gen0)
    (by decide) (by decide) (by decide)).1

end SatEnc
